import Mathlib

/-!
Verification of the bmpsss (k,n) threshold secret-image sharing program
(src/src/bmpsss.c) over GF(257), following the Thien-Lin construction.

The development shallowly embeds the algorithmic core of the C source:
the 48-bit LCG pseudo-random generator and XOR whitening mask, the GF(257)
inverse table, the polynomial sharing engine with its coefficient-repair
rule, the Vandermonde matrix assembly and Gaussian elimination of the
reconstruction engine, and the LSB steganography layer.  Machine integers
are modelled as `Nat`/`Int` with explicit masking where the C code masks;
the evaluation loop of `formshadows` (which the C source performs through
`pow` on doubles accumulated into a `uint64_t`) is modelled with exact
natural-number arithmetic, which coincides with the C computation whenever
all intermediate values are below `2^53`.
-/

namespace Bmpsss

/-- Table of modular multiplicative inverses mod 257, transcribed from the
global array `modinv` in bmpsss.c (lines 104-121). -/
def modinvTable : List Nat := [
  0, 1, 129, 86, 193, 103, 43, 147, 225, 200, 180, 187, 150, 178, 202, 120,
  241, 121, 100, 230, 90, 49, 222, 190, 75, 72, 89, 238, 101, 195, 60, 199,
  249, 148, 189, 235, 50, 132, 115, 145, 45, 163, 153, 6, 111, 40, 95, 175,
  166, 21, 36, 126, 173, 97, 119, 243, 179, 248, 226, 61, 30, 59, 228, 102,
  253, 87, 74, 234, 223, 149, 246, 181, 25, 169, 66, 24, 186, 247, 201, 244,
  151, 165, 210, 96, 205, 127, 3, 65, 184, 26, 20, 209, 176, 152, 216, 46, 83,
  53, 139, 135, 18, 28, 63, 5, 215, 164, 177, 245, 188, 224, 250, 44, 218,
  116, 124, 38, 113, 134, 159, 54, 15, 17, 158, 140, 114, 220, 51, 85, 255, 2,
  172, 206, 37, 143, 117, 99, 240, 242, 203, 98, 123, 144, 219, 133, 141, 39,
  213, 7, 33, 69, 12, 80, 93, 42, 252, 194, 229, 239, 122, 118, 204, 174, 211,
  41, 105, 81, 48, 237, 231, 73, 192, 254, 130, 52, 161, 47, 92, 106, 13, 56,
  10, 71, 233, 191, 88, 232, 76, 11, 108, 34, 23, 183, 170, 4, 155, 29, 198,
  227, 196, 31, 9, 78, 14, 138, 160, 84, 131, 221, 236, 91, 82, 162, 217, 146,
  251, 104, 94, 212, 112, 142, 125, 207, 22, 68, 109, 8, 58, 197, 62, 156, 19,
  168, 185, 182, 67, 35, 208, 167, 27, 157, 136, 16, 137, 55, 79, 107, 70, 77,
  57, 32, 110, 214, 154, 64, 171, 128, 256]

/-- PRNG seeding, `setseed` in bmpsss.c: the 48-bit state becomes
`(s XOR 25214903917) AND (2^48 - 1)`.  The C state is an `int64_t` that the
masking keeps inside `[0, 2^48)`, so a `Nat` models it exactly. -/
def setseed (s : Nat) : Nat := (Nat.xor s 25214903917) &&& 281474976710655

/-- State update performed by `nextbyte` in bmpsss.c:
`rseed = (rseed * 25214903917 + 11) & (2^48 - 1)`.  The C multiplication can
overflow `int64_t`; with the customary two's-complement wrap the low 48 bits
(all that survive the mask) agree with exact arithmetic, which is what is
modelled here. -/
def nextstate (S : Nat) : Nat := (S * 25214903917 + 11) &&& 281474976710655

/-- Return value of `nextbyte` as a function of the updated state:
`n = rseed >> (48 - 31); return 256 * n >> 31`. -/
def nextout (S : Nat) : Nat := (256 * (S >>> 17)) >>> 31

/-- Byte taken by one `nextbyte()` call starting from state `S`. -/
def nextbyte (S : Nat) : Nat := nextout (nextstate S)

/-- Stream of `len` bytes produced by repeated `nextbyte()` calls starting
from state `S` (the generation loop of `randomtable` in bmpsss.c). -/
def randomtableAux : Nat → Nat → List Nat
  | 0, _ => []
  | len + 1, S => nextbyte S :: randomtableAux len (nextstate S)

/-- Whitening table, `randomtable(tablesize, seed)` in bmpsss.c: seed the
generator, then draw `tablesize` bytes. -/
def randomtable (tablesize seed : Nat) : List Nat :=
  randomtableAux tablesize (setseed seed)

/-- Pixel whitening, `xorbmpwithrandomtable` in bmpsss.c: XOR the pixel
buffer with a fresh random table of the same length. -/
def xorwithtable (pixels : List Nat) (seed : Nat) : List Nat :=
  List.zipWith Nat.xor pixels (randomtable pixels.length seed)

theorem randomtableAux_length (len S : Nat) : (randomtableAux len S).length = len := by
  induction len generalizing S with
  | zero => rfl
  | succ n ih => simp [randomtableAux, ih]

theorem randomtable_length (len seed : Nat) : (randomtable len seed).length = len :=
  randomtableAux_length len (setseed seed)

theorem xorwithtable_length (pixels : List Nat) (seed : Nat) :
    (xorwithtable pixels seed).length = pixels.length := by
  simp [xorwithtable, randomtable_length]

theorem zipWith_xor_cancel (p t : List Nat) (h : t.length = p.length) :
    List.zipWith Nat.xor (List.zipWith Nat.xor p t) t = p := by
  induction p generalizing t with
  | nil => simp
  | cons a p ih =>
    cases t with
    | nil => simp at h
    | cons b t =>
      simp only [List.zipWith_cons_cons]
      rw [ih t (by simpa using h)]
      rw [show Nat.xor (Nat.xor a b) b = a from Nat.xor_cancel_right b a]

theorem xorwithtable_eq (pixels : List Nat) (seed : Nat) :
    xorwithtable pixels seed =
      List.zipWith Nat.xor pixels (randomtable pixels.length seed) := rfl

/-- C5: applying the whitening mask twice with the same seed is the identity
on the pixel buffer. -/
theorem mask_involution (pixels : List Nat) (seed : Nat) :
    xorwithtable (xorwithtable pixels seed) seed = pixels := by
  rw [xorwithtable_eq (xorwithtable pixels seed), xorwithtable_length,
    xorwithtable_eq]
  exact zipWith_xor_cancel pixels (randomtable pixels.length seed)
    (randomtable_length pixels.length seed)

/-- C6: the PRNG is the specified 48-bit LCG, bit for bit: seeding sets the
state to `(s XOR 25214903917) mod 2^48`, one step sends state `S` to
`(S * 25214903917 + 11) mod 2^48`, the returned byte is
`(256 * (S' >> 17)) >> 31` for the updated state `S'`, and that byte always
lies in `[0, 255]`. -/
theorem prng_spec (s S : Nat) :
    setseed s = Nat.xor s 25214903917 % 2 ^ 48 ∧
    nextstate S = (S * 25214903917 + 11) % 2 ^ 48 ∧
    nextbyte S = 256 * (((S * 25214903917 + 11) % 2 ^ 48) / 2 ^ 17) / 2 ^ 31 ∧
    nextbyte S ≤ 255 := by
  have hmask : (281474976710655 : Nat) = 2 ^ 48 - 1 := by norm_num
  have h1 : setseed s = Nat.xor s 25214903917 % 2 ^ 48 := by
    rw [setseed, hmask, Nat.and_pow_two_sub_one_eq_mod]
  have h2 : nextstate S = (S * 25214903917 + 11) % 2 ^ 48 := by
    rw [nextstate, hmask, Nat.and_pow_two_sub_one_eq_mod]
  have h3 : nextbyte S =
      256 * (((S * 25214903917 + 11) % 2 ^ 48) / 2 ^ 17) / 2 ^ 31 := by
    rw [nextbyte, nextout, h2, Nat.shiftRight_eq_div_pow, Nat.shiftRight_eq_div_pow]
  refine ⟨h1, h2, h3, ?_⟩
  have hlt : (S * 25214903917 + 11) % 2 ^ 48 < 2 ^ 48 := Nat.mod_lt _ (by norm_num)
  have hn : ((S * 25214903917 + 11) % 2 ^ 48) / 2 ^ 17 < 2 ^ 31 := by
    apply Nat.div_lt_of_lt_mul
    calc (S * 25214903917 + 11) % 2 ^ 48 < 2 ^ 48 := hlt
    _ = 2 ^ 31 * 2 ^ 17 := by norm_num
  have hout : 256 * (((S * 25214903917 + 11) % 2 ^ 48) / 2 ^ 17) / 2 ^ 31 < 256 := by
    apply Nat.div_lt_of_lt_mul
    have : (2:Nat) ^ 31 = 2147483648 := by norm_num
    omega
  omega

/-- Bytes drawn from the generator are always below 256. -/
theorem randomtableAux_lt (len S : Nat) : ∀ b ∈ randomtableAux len S, b < 256 := by
  induction len generalizing S with
  | zero => simp [randomtableAux]
  | succ n ih =>
    intro b hb
    rcases (List.mem_cons).mp hb with h | h
    · have := (prng_spec 0 S).2.2.2
      omega
    · exact ih (nextstate S) b h

set_option maxRecDepth 20000 in
/-- C7: the hardcoded inverse table is correct over GF(257): for every
`i` in `1..256`, `(i * modinv[i]) mod 257 = 1`. -/
theorem modinv_correct : ∀ i < 257, 1 ≤ i → i * modinvTable.getD i 0 % 257 = 1 := by
  decide

/-- Witness for `modinv_correct` at the concrete index 2. -/
theorem modinv_correct_witness :
    2 < 257 ∧ 1 ≤ 2 ∧ 2 * modinvTable.getD 2 0 % 257 = 1 :=
  ⟨by decide, by decide, modinv_correct 2 (by decide) (by decide)⟩

/-- Polynomial evaluation sum of the `step4` loop in `formshadows`:
`value += coeff[r] * pow(x, r)` for the coefficients from position `r` on.
The C source computes the powers with `pow` on doubles and each addend
passes through a double on its way into the `uint64_t` accumulator; this is
the exact-arithmetic reading.  The two computations coincide exactly when
`x^r < 2^53` for every exponent `r` below the group size and the group's
full sum is below `2^53`: every power, product and partial sum is then an
integer below `2^53`, so each double step is exact (for `pow` this is the
value any implementation rounding to nearest must return, since the true
result is representable) and the `uint64` conversions are lossless; a zero
coefficient multiplies an exact finite power by `0`, giving exactly `0`.
Theorems that depend on the numeric value of an evaluation
(`roundtrip_norepair` for C1) carry these bounds as hypotheses; outside
them the program's output is not determined by the source (claim C2). -/
def polysumAux (x : Nat) : List Nat → Nat → Nat
  | [], _ => 0
  | c :: cs, r => c * x ^ r + polysumAux x cs (r + 1)

/-- Value of the section polynomial of a pixel group at `x`. -/
def polysum (coeffs : List Nat) (x : Nat) : Nat := polysumAux x coeffs 0

/-- Shadow pixel candidates for one pixel group before the repair check:
`pixels[i] = f(i+1) mod 257` for `i = 0 .. n-1` (`formshadows`, step4 loop).
Inherits `polysum`'s exact reading and its `2^53` faithfulness regime. -/
def evalgroup (coeffs : List Nat) (n : Nat) : List Nat :=
  (List.range n).map fun i => polysum coeffs (i + 1) % 257

/-- Repair step `decreasecoeff` in bmpsss.c: scan for the first non-zero
coefficient and decrease it by one.  (On an all-zero group the C scan would
run past the buffer; that case is unreachable, see `repair_invokes_safely`.) -/
def decreasecoeff : List Nat → List Nat
  | [] => []
  | c :: cs => if c = 0 then c :: decreasecoeff cs else (c - 1) :: cs

theorem polysumAux_allzero (x : Nat) (l : List Nat) (r : Nat)
    (h : ∀ c ∈ l, c = 0) : polysumAux x l r = 0 := by
  induction l generalizing r with
  | nil => rfl
  | cons c cs ih =>
    have hc : c = 0 := h c (List.mem_cons_self c cs)
    simp [polysumAux, hc, ih (r + 1) fun d hd => h d (List.mem_cons_of_mem c hd)]

theorem exists_ne_zero_of_mem_evalgroup (n : Nat) (coeffs : List Nat)
    (h : 256 ∈ evalgroup coeffs n) : ∃ c ∈ coeffs, c ≠ 0 := by
  by_contra hall
  push_neg at hall
  rcases List.mem_map.mp h with ⟨i, _, hi⟩
  rw [polysum, polysumAux_allzero _ _ _ hall] at hi
  simp at hi

theorem decreasecoeff_sum (coeffs : List Nat) (h : ∃ c ∈ coeffs, c ≠ 0) :
    (decreasecoeff coeffs).sum + 1 = coeffs.sum := by
  induction coeffs with
  | nil => simp at h
  | cons c cs ih =>
    by_cases hc : c = 0
    · have : ∃ d ∈ cs, d ≠ 0 := by
        rcases h with ⟨d, hd, hdne⟩
        rcases List.mem_cons.mp hd with rfl | hmem
        · exact absurd hc hdne
        · exact ⟨d, hmem, hdne⟩
      simp only [decreasecoeff, hc, if_true, List.sum_cons]
      have := ih this
      omega
    · simp only [decreasecoeff, hc, if_false, List.sum_cons]
      omega

/-- Repair loop of `formshadows` on one pixel group, with explicit fuel
(the loop terminates because every repair decreases the coefficient sum,
see `sharegroup_eq`): re-evaluate and decrease the first non-zero
coefficient as long as some evaluation equals 256. -/
def shareGroupFuel (n : Nat) : Nat → List Nat → List Nat
  | 0, coeffs => evalgroup coeffs n
  | fuel + 1, coeffs =>
    if 256 ∈ evalgroup coeffs n then shareGroupFuel n fuel (decreasecoeff coeffs)
    else evalgroup coeffs n

/-- Pixel values produced for one pixel group by `formshadows` (the fuel
`coeffs.sum + 1` always suffices, see `shareGroupFuel_irrel`). -/
def shareGroup (n : Nat) (coeffs : List Nat) : List Nat :=
  shareGroupFuel n (coeffs.sum + 1) coeffs

theorem shareGroupFuel_irrel (n : Nat) (f1 f2 : Nat) (coeffs : List Nat)
    (h1 : coeffs.sum < f1) (h2 : coeffs.sum < f2) :
    shareGroupFuel n f1 coeffs = shareGroupFuel n f2 coeffs := by
  induction f1 generalizing f2 coeffs with
  | zero => omega
  | succ f ih =>
    cases f2 with
    | zero => omega
    | succ g =>
      simp only [shareGroupFuel]
      by_cases hmem : 256 ∈ evalgroup coeffs n
      · simp only [hmem, if_true]
        have hsum := decreasecoeff_sum coeffs (exists_ne_zero_of_mem_evalgroup n coeffs hmem)
        exact ih g (decreasecoeff coeffs) (by omega) (by omega)
      · simp [hmem]

theorem sharegroup_step (n : Nat) (coeffs : List Nat)
    (h : 256 ∈ evalgroup coeffs n) :
    shareGroup n coeffs = shareGroup n (decreasecoeff coeffs) := by
  have hsum := decreasecoeff_sum coeffs (exists_ne_zero_of_mem_evalgroup n coeffs h)
  unfold shareGroup
  rw [show shareGroupFuel n (coeffs.sum + 1) coeffs
      = shareGroupFuel n coeffs.sum (decreasecoeff coeffs) by
    simp [shareGroupFuel, h]]
  exact shareGroupFuel_irrel n _ _ _ (by omega) (by omega)

theorem sharegroup_done (n : Nat) (coeffs : List Nat)
    (h : 256 ∉ evalgroup coeffs n) :
    shareGroup n coeffs = evalgroup coeffs n := by
  unfold shareGroup
  simp [shareGroupFuel, h]

theorem sharegroup_le_aux (n : Nat) :
    ∀ s coeffs, List.sum coeffs ≤ s → ∀ v ∈ shareGroup n coeffs, v ≤ 255 := by
  intro s
  induction s with
  | zero =>
    intro coeffs hs v hv
    have hall : ∀ c ∈ coeffs, c = 0 := by
      intro c hc
      have := List.single_le_sum (fun (x : Nat) _ => Nat.zero_le x) c hc
      omega
    have hnm : 256 ∉ evalgroup coeffs n := by
      intro hmem
      rcases exists_ne_zero_of_mem_evalgroup n coeffs hmem with ⟨c, hc, hne⟩
      exact hne (hall c hc)
    rw [sharegroup_done n coeffs hnm] at hv
    rcases List.mem_map.mp hv with ⟨i, _, hi⟩
    have h257 : polysum coeffs (i + 1) % 257 < 257 := Nat.mod_lt _ (by norm_num)
    have hne : v ≠ 256 := fun hveq => hnm (hveq ▸ hv)
    omega
  | succ m ih =>
    intro coeffs hs v hv
    by_cases hmem : 256 ∈ evalgroup coeffs n
    · rw [sharegroup_step n coeffs hmem] at hv
      have hsum := decreasecoeff_sum coeffs (exists_ne_zero_of_mem_evalgroup n coeffs hmem)
      exact ih (decreasecoeff coeffs) (by omega) v hv
    · rw [sharegroup_done n coeffs hmem] at hv
      rcases List.mem_map.mp hv with ⟨i, _, hi⟩
      have h257 : polysum coeffs (i + 1) % 257 < 257 := Nat.mod_lt _ (by norm_num)
      have hne : v ≠ 256 := fun hveq => hmem (hveq ▸ hv)
      omega

/-- C4: whenever some evaluation of a pixel group's polynomial equals 256 the
engine decrements the first non-zero coefficient and re-evaluates; a group
whose evaluations never hit 256 is shared with its coefficients unmodified
(its output is exactly the evaluations of the incoming coefficients); and
every pixel value finally produced for the group lies in `[0, 255]`. -/
theorem repair_rule (n : Nat) (coeffs : List Nat) :
    (256 ∈ evalgroup coeffs n →
      shareGroup n coeffs = shareGroup n (decreasecoeff coeffs)) ∧
    (256 ∉ evalgroup coeffs n → shareGroup n coeffs = evalgroup coeffs n) ∧
    (∀ v ∈ shareGroup n coeffs, v ≤ 255) :=
  ⟨sharegroup_step n coeffs, sharegroup_done n coeffs,
    sharegroup_le_aux n coeffs.sum coeffs (Nat.le_refl _)⟩

/-- Witness for `repair_rule` at `n = 1`, `coeffs = [128, 128]` (whose sum is
256, so the evaluation at `x = 1` is exactly 256 and the repair fires). -/
theorem repair_rule_witness :
    (256 ∈ evalgroup [128, 128] 1 ∧
      shareGroup 1 [128, 128] = shareGroup 1 (decreasecoeff [128, 128])) ∧
    (256 ∉ evalgroup [127, 128] 1 ∧
      shareGroup 1 [127, 128] = evalgroup [127, 128] 1) ∧
    (∀ v ∈ shareGroup 1 [128, 128], v ≤ 255) :=
  ⟨⟨by decide, (repair_rule 1 [128, 128]).1 (by decide)⟩,
    ⟨by decide, (repair_rule 1 [127, 128]).2.1 (by decide)⟩,
    (repair_rule 1 [128, 128]).2.2⟩

/-- C10: whenever the repair step is invoked (some evaluation equals 256), at
least one coefficient of the group is non-zero, the scan for the first
non-zero coefficient stays inside the group's bytes, and each repair strictly
decreases the coefficient sum, so the repair loop terminates. -/
theorem repair_invokes_safely (n : Nat) (coeffs : List Nat)
    (h : 256 ∈ evalgroup coeffs n) :
    (∃ c ∈ coeffs, c ≠ 0) ∧
    List.findIdx (fun c => c != 0) coeffs < coeffs.length ∧
    (decreasecoeff coeffs).sum + 1 = coeffs.sum := by
  have hex := exists_ne_zero_of_mem_evalgroup n coeffs h
  refine ⟨hex, ?_, decreasecoeff_sum coeffs hex⟩
  apply List.findIdx_lt_length_of_exists
  rcases hex with ⟨c, hc, hne⟩
  exact ⟨c, hc, by simpa using hne⟩

/-- Witness for `repair_invokes_safely` at `n = 1`, `coeffs = [0, 128, 128]`. -/
theorem repair_invokes_safely_witness :
    256 ∈ evalgroup [0, 128, 128] 1 ∧
    ((∃ c ∈ [0, 128, 128], c ≠ 0) ∧
      List.findIdx (fun c => c != 0) [0, 128, 128] < 3 ∧
      (decreasecoeff [0, 128, 128]).sum + 1 = List.sum [0, 128, 128]) :=
  ⟨by decide, repair_invokes_safely 1 [0, 128, 128] (by decide)⟩

/-- Inner loop of `hideshadow` for one shadow byte: walk the byte MSB-first
(test `0x80`, then shift left inside the 8-bit register) and force the
least-significant bit of each of the next carrier bytes accordingly
(`RIGHTMOST_BIT_ON` / `RIGHTMOST_BIT_OFF`). -/
def hidebits : Nat → List Nat → List Nat
  | _, [] => []
  | byte, c :: cs =>
    (if byte &&& 128 ≠ 0 then c ||| 1 else c &&& 254) ::
      hidebits ((byte <<< 1) &&& 255) cs

/-- Pixel-buffer effect of `hideshadow` in bmpsss.c: each shadow byte is
spread over the LSBs of the next 8 carrier bytes.  (The header copying and
the file write of the C function carry no pixel information.) -/
def hideshadow : List Nat → List Nat → List Nat
  | [], carrier => carrier
  | b :: bs, carrier => hidebits b (carrier.take 8) ++ hideshadow bs (carrier.drop 8)

/-- Inner loop of `retrieveshadow`: reassemble one shadow byte from the LSBs
of 8 carrier bytes, MSB-first (`mask` starts at `0x80` and shifts right). -/
def retrbits : Nat → Nat → List Nat → Nat
  | _, byte, [] => byte
  | mask, byte, c :: cs =>
    retrbits (mask >>> 1) (if c &&& 1 ≠ 0 then byte ||| mask else byte) cs

/-- Pixel-buffer effect of `retrieveshadow` in bmpsss.c: read `npix` shadow
bytes out of the carrier's LSBs, 8 carrier bytes per shadow byte. -/
def retrieveshadow (npix : Nat) (carrier : List Nat) : List Nat :=
  (List.range npix).map fun i => retrbits 128 0 ((carrier.drop (8 * i)).take 8)

/-- LSB pattern that `hidebits` writes for one byte, tracked through the
shifting 8-bit register. -/
def lsbits : Nat → Nat → List Nat
  | 0, _ => []
  | m + 1, b => (if b &&& 128 ≠ 0 then 1 else 0) :: lsbits m ((b <<< 1) &&& 255)

theorem hidebits_length (b : Nat) (cs : List Nat) :
    (hidebits b cs).length = cs.length := by
  induction cs generalizing b with
  | nil => rfl
  | cons c cs ih => simp [hidebits, ih]

theorem lsb_or_one (c : Nat) : (c ||| 1) % 2 = 1 :=
  Nat.mod_two_eq_one_iff_testBit_zero.mpr (by simp [Nat.testBit_or])

theorem lsb_and_mask (c : Nat) : (c &&& 254) % 2 = 0 :=
  Nat.mod_two_eq_zero_iff_testBit_zero.mpr (by simp)

theorem hi_or_one (c : Nat) : (c ||| 1) / 2 = c / 2 := by
  have h : (c ||| 1) >>> 1 = c >>> 1 := by
    apply Nat.eq_of_testBit_eq
    intro i
    rw [Nat.testBit_shiftRight, Nat.testBit_shiftRight, Nat.testBit_or]
    have h1 : Nat.testBit 1 (1 + i) = false :=
      Nat.testBit_eq_false_of_lt (Nat.one_lt_two_pow (by omega))
    simp [h1]
  simpa [Nat.shiftRight_one] using h

theorem hi_and_mask (c : Nat) (hc : c < 256) : (c &&& 254) / 2 = c / 2 := by
  have h : (c &&& 254) >>> 1 = c >>> 1 := by
    apply Nat.eq_of_testBit_eq
    intro i
    simp only [Nat.testBit_shiftRight, Nat.testBit_and]
    rcases Nat.lt_or_ge i 7 with hi | hi
    · have : (254 : Nat).testBit (1 + i) = true := by
        interval_cases i <;> decide
      simp [this]
    · have h254 : (254 : Nat).testBit (1 + i) = false := by
        apply Nat.testBit_eq_false_of_lt
        calc (254 : Nat) < 2 ^ 8 := by norm_num
        _ ≤ 2 ^ (1 + i) := Nat.pow_le_pow_right (by norm_num) (by omega)
      have hcbit : c.testBit (1 + i) = false := by
        apply Nat.testBit_eq_false_of_lt
        calc c < 256 := hc
        _ = 2 ^ 8 := by norm_num
        _ ≤ 2 ^ (1 + i) := Nat.pow_le_pow_right (by norm_num) (by omega)
      simp [h254, hcbit]
  simpa [Nat.shiftRight_one] using h

theorem hidebits_mod_two (cs : List Nat) (b : Nat) :
    (hidebits b cs).map (· % 2) = lsbits cs.length b := by
  induction cs generalizing b with
  | nil => rfl
  | cons c cs ih =>
    by_cases hb : b &&& 128 ≠ 0 <;>
      simp [hidebits, lsbits, hb, lsb_or_one, lsb_and_mask, ih]

theorem retrbits_congr (cs ds : List Nat) (mask byte : Nat)
    (h : cs.map (· % 2) = ds.map (· % 2)) :
    retrbits mask byte cs = retrbits mask byte ds := by
  induction cs generalizing ds mask byte with
  | nil => cases ds with
    | nil => rfl
    | cons d ds => simp at h
  | cons c cs ih =>
    cases ds with
    | nil => simp at h
    | cons d ds =>
      simp only [List.map_cons, List.cons.injEq] at h
      have hcond : (c &&& 1 ≠ 0) = (d &&& 1 ≠ 0) := by
        rw [Nat.and_one_is_mod, Nat.and_one_is_mod, h.1]
      simp only [retrbits, hcond]
      exact ih ds _ _ h.2

theorem lsbits_map_mod (m b : Nat) : (lsbits m b).map (· % 2) = lsbits m b := by
  induction m generalizing b with
  | zero => rfl
  | succ m ih =>
    by_cases hb : b &&& 128 ≠ 0 <;> simp [lsbits, hb, ih]

set_option maxRecDepth 4000 in
theorem retr_lsbits : ∀ b < 256, retrbits 128 0 (lsbits 8 b) = b := by
  decide

theorem retr_hide_chunk (b : Nat) (hb : b < 256) (cs : List Nat)
    (hlen : cs.length = 8) :
    retrbits 128 0 (hidebits b cs) = b := by
  rw [retrbits_congr (hidebits b cs) (lsbits 8 b) 128 0
    (by rw [hidebits_mod_two, hlen, lsbits_map_mod])]
  exact retr_lsbits b hb

theorem getD_take (l : List Nat) (m p : Nat) (h : p < m) :
    (l.take m).getD p 0 = l.getD p 0 := by
  induction l generalizing m p with
  | nil => simp
  | cons a l ih =>
    cases m with
    | zero => omega
    | succ m =>
      cases p with
      | zero => simp
      | succ p => simpa using ih m p (by omega)

theorem getD_drop (l : List Nat) (m p : Nat) :
    (l.drop m).getD p 0 = l.getD (m + p) 0 := by
  induction l generalizing m with
  | nil => simp
  | cons a l ih =>
    cases m with
    | zero => simp
    | succ m => simpa [Nat.succ_add] using ih m

theorem hideshadow_nil (S : List Nat) : hideshadow S [] = [] := by
  induction S with
  | nil => rfl
  | cons b bs ih => simp [hideshadow, hidebits, ih]

theorem hideshadow_length (S C : List Nat) :
    (hideshadow S C).length = C.length := by
  induction S generalizing C with
  | nil => rfl
  | cons b bs ih =>
    simp only [hideshadow, List.length_append, hidebits_length, List.length_take,
      ih, List.length_drop]
    omega

theorem hidebits_hi (cs : List Nat) (hc : ∀ c ∈ cs, c < 256) (b p : Nat) :
    (hidebits b cs).getD p 0 / 2 = cs.getD p 0 / 2 := by
  induction cs generalizing b p with
  | nil => rfl
  | cons c cs ih =>
    cases p with
    | zero =>
      by_cases hb : b &&& 128 ≠ 0 <;>
        simp [hidebits, hb, hi_or_one, hi_and_mask c (hc c (List.mem_cons_self c cs))]
    | succ p =>
      simpa [hidebits] using
        ih (fun d hd => hc d (List.mem_cons_of_mem c hd)) ((b <<< 1) &&& 255) p

theorem hideshadow_hi (S C : List Nat) (hC : ∀ c ∈ C, c < 256) (p : Nat) :
    (hideshadow S C).getD p 0 / 2 = C.getD p 0 / 2 := by
  induction S generalizing C p with
  | nil => rfl
  | cons b bs ih =>
    simp only [hideshadow]
    have hm : (hidebits b (C.take 8)).length = min 8 C.length := by
      rw [hidebits_length, List.length_take]
    by_cases hp : p < (hidebits b (C.take 8)).length
    · rw [List.getD_append _ _ _ _ hp]
      rw [hidebits_hi (C.take 8) (fun c hc => hC c (List.take_subset 8 C hc)) b p]
      rw [hm] at hp
      rw [getD_take C 8 p (by omega)]
    · push_neg at hp
      rw [List.getD_append_right _ _ _ _ hp]
      rw [ih (C.drop 8) (fun c hc => hC c (List.drop_subset 8 C hc))]
      rw [getD_drop]
      rw [hm] at hp ⊢
      rcases Nat.lt_or_ge C.length 8 with hlt | hge
      · rw [List.getD_eq_default _ _ (show C.length ≤ 8 + (p - min 8 C.length) by omega),
          List.getD_eq_default _ _ (show C.length ≤ p by omega)]
      · have h8 : 8 + (p - min 8 C.length) = p := by omega
        rw [h8]

set_option maxRecDepth 4000 in
theorem lsbits_getD : ∀ b < 256, ∀ j < 8,
    (lsbits 8 b).getD j 0 = if b.testBit (7 - j) then 1 else 0 := by
  decide

theorem hidebits_lsb (b : Nat) (hb : b < 256) (cs : List Nat)
    (hlen : cs.length = 8) (j : Nat) (hj : j < 8) :
    (hidebits b cs).getD j 0 % 2 = if b.testBit (7 - j) then 1 else 0 := by
  have hlen' : (hidebits b cs).length = 8 := by rw [hidebits_length, hlen]
  have hmap := hidebits_mod_two cs b
  rw [hlen] at hmap
  have h1 : ((hidebits b cs).map (· % 2)).getD j 0 = (hidebits b cs).getD j 0 % 2 := by
    rw [List.getD_eq_getElem _ _ (by simp [hlen']; omega),
      List.getD_eq_getElem _ _ (by omega : j < (hidebits b cs).length)]
    simp
  rw [← h1, hmap]
  exact lsbits_getD b hb j hj

theorem hideshadow_chunk (S C : List Nat) (i : Nat)
    (hlen : 8 * S.length ≤ C.length) (hi : i < S.length) (j : Nat) (hj : j < 8) :
    (hideshadow S C).getD (8 * i + j) 0 =
      (hidebits (S.getD i 0) ((C.drop (8 * i)).take 8)).getD j 0 := by
  induction S generalizing C i with
  | nil => simp at hi
  | cons b bs ih =>
    simp only [List.length_cons] at hlen hi
    have hC8 : 8 ≤ C.length := by omega
    have hm : (hidebits b (C.take 8)).length = 8 := by
      rw [hidebits_length, List.length_take]; omega
    cases i with
    | zero =>
      simp only [hideshadow, Nat.mul_zero, Nat.zero_add, List.drop_zero,
        List.getD_cons_zero]
      rw [List.getD_append _ _ _ _ (by omega)]
    | succ i =>
      simp only [hideshadow, List.getD_cons_succ]
      rw [List.getD_append_right _ _ _ _ (by omega)]
      have harith : 8 * (i + 1) + j - (hidebits b (C.take 8)).length = 8 * i + j := by
        omega
      rw [harith]
      rw [ih (C.drop 8) i (by rw [List.length_drop]; omega) (by omega)]
      have hdd : (C.drop 8).drop (8 * i) = C.drop (8 * (i + 1)) := by
        rw [List.drop_drop]
        congr 1
        ring
      rw [hdd]

theorem retrieveshadow_succ (m : Nat) (cs : List Nat) :
    retrieveshadow (m + 1) cs =
      retrbits 128 0 (cs.take 8) :: retrieveshadow m (cs.drop 8) := by
  unfold retrieveshadow
  rw [List.range_succ_eq_map, List.map_cons]
  simp only [Nat.mul_zero, List.drop_zero, List.map_map]
  congr 1
  apply List.map_congr_left
  intro i _
  simp only [Function.comp_apply]
  have hdd : (cs.drop 8).drop (8 * i) = cs.drop (8 * Nat.succ i) := by
    rw [List.drop_drop]
    congr 1
    omega
  rw [hdd]

theorem retrieve_hide (S C : List Nat) (hS : ∀ b ∈ S, b < 256)
    (hlen : 8 * S.length ≤ C.length) :
    retrieveshadow S.length (hideshadow S C) = S := by
  induction S generalizing C with
  | nil => rfl
  | cons b bs ih =>
    simp only [List.length_cons] at hlen ⊢
    have hC8 : 8 ≤ C.length := by omega
    have hm : (hidebits b (C.take 8)).length = 8 := by
      rw [hidebits_length, List.length_take]; omega
    rw [retrieveshadow_succ]
    simp only [hideshadow]
    rw [List.take_left' hm, List.drop_left' hm]
    congr 1
    · exact retr_hide_chunk b (hS b (List.mem_cons_self b bs)) (C.take 8)
        (by rw [List.length_take]; omega)
    · exact ih (C.drop 8) (fun d hd => hS d (List.mem_cons_of_mem b hd))
        (by rw [List.length_drop]; omega)

/-- C9: hiding a shadow in a carrier only touches least-significant bits:
the result has the carrier's length, every byte keeps the carrier's high
7 bits, the LSBs of bytes `8*i .. 8*i+7` encode shadow byte `i` MSB-first,
and reading those LSBs back (`retrieveshadow`) reproduces the shadow's
pixels exactly, provided the carrier has at least `8 * |S|` pixel bytes. -/
theorem stego_lsb (S C : List Nat) (hS : ∀ b ∈ S, b < 256)
    (hC : ∀ c ∈ C, c < 256) (hlen : 8 * S.length ≤ C.length) :
    (hideshadow S C).length = C.length ∧
    (∀ p, (hideshadow S C).getD p 0 / 2 = C.getD p 0 / 2) ∧
    (∀ i < S.length, ∀ j < 8,
      (hideshadow S C).getD (8 * i + j) 0 % 2 =
        if (S.getD i 0).testBit (7 - j) then 1 else 0) ∧
    retrieveshadow S.length (hideshadow S C) = S := by
  refine ⟨hideshadow_length S C, hideshadow_hi S C hC, ?_, retrieve_hide S C hS hlen⟩
  intro i hi j hj
  rw [hideshadow_chunk S C i hlen hi j hj]
  have hbyte : S.getD i 0 < 256 := by
    have : S.getD i 0 ∈ S := by
      rw [List.getD_eq_getElem _ _ (by omega : i < S.length)]
      exact List.getElem_mem _
    exact hS _ this
  apply hidebits_lsb _ hbyte
  · simp only [List.length_take, List.length_drop]
    omega
  · exact hj

/-- Witness for `stego_lsb`: one shadow byte 171 hidden in an 8-byte carrier. -/
theorem stego_lsb_witness :
    (∀ b ∈ [171], b < 256) ∧ (∀ c ∈ [10, 11, 12, 13, 14, 15, 16, 17], c < 256) ∧
    8 * List.length [171] ≤ List.length [10, 11, 12, 13, 14, 15, 16, 17] ∧
    ((hideshadow [171] [10, 11, 12, 13, 14, 15, 16, 17]).length =
        List.length [10, 11, 12, 13, 14, 15, 16, 17] ∧
      (∀ p, (hideshadow [171] [10, 11, 12, 13, 14, 15, 16, 17]).getD p 0 / 2 =
        List.getD [10, 11, 12, 13, 14, 15, 16, 17] p 0 / 2) ∧
      (∀ i < List.length [171], ∀ j < 8,
        (hideshadow [171] [10, 11, 12, 13, 14, 15, 16, 17]).getD (8 * i + j) 0 % 2 =
          if (List.getD [171] i 0).testBit (7 - j) then 1 else 0) ∧
      retrieveshadow (List.length [171]) (hideshadow [171] [10, 11, 12, 13, 14, 15, 16, 17]) =
        [171]) :=
  ⟨by decide, by decide, by decide,
    stego_lsb [171] [10, 11, 12, 13, 14, 15, 16, 17] (by decide) (by decide) (by decide)⟩

/-- Euclidean remainder helper `mod` used by `findcoefficients`.
Modelled from the spec: util.h, which defines `mod`, is not part of the
repository snapshot; the spec (section 4.2) requires `mod(x, 257)` to be the
always-non-negative Euclidean remainder, accepting negatives — for a positive
modulus this is exactly `Int.emod` (Lean's `%` on `Int`). -/
def utilmod (x m : Int) : Int := x % m

/-- Truncated remainder of the C `%` operator on `int` operands (rounds the
quotient toward zero, result takes the dividend's sign). -/
def cmod (x m : Int) : Int := Int.tmod x m

/-- Table access `modinv[v]` with an `int` index, as the C code performs it.
An index outside `[0, 256]` would be an out-of-bounds read (undefined
behaviour); it is modelled as 0 and never occurs on inputs reached from
`revealsecret`, where every index into the table is a previously reduced
entry in `[0, 256]` or the constant 1. -/
def nthinv (v : Int) : Int :=
  if 0 ≤ v ∧ v < 257 then (modinvTable.getD v.toNat 0 : Int) else 0

/-- Power column of the matrix assembly in `revealsecret`: `value` starts at
the shadow index and is multiplied by it once per column, so column `t`
holds the exact (unreduced) integer power. -/
def vandentry (x : Int) : Nat → Int
  | 0 => 1
  | t + 1 => vandentry x t * x

/-- Augmented k×(k+1) matrix assembled per pixel group by `revealsecret`:
row `i` is `[1, x_i, x_i^2, ..., x_i^(k-1) | pix_i]`, where `x_i` is shadow
`i`'s index (`unused2`) and `pix_i` its pixel at the current group offset.
The C `int` entries are modelled as unbounded `Int` (the C computation is
exact until `x_i^(k-1)` overflows 31 bits, which is undefined behaviour). -/
def buildmat (k : Nat) (x : Nat → Int) (pix : Nat → Int) : Nat → Nat → Int :=
  fun i t => if t < k then vandentry (x i) t else pix i

/-- One column pass of the forward elimination in `findcoefficients`: for
rows `i = k-1` down to `j+1`, subtract the multiple
`a = mat[i][j] * modinv[mat[i-1][j]]` of row `i-1` from row `i` on entries
`t = j .. k`, reducing each with `mod(-, 257)`.  The C loop walks `i`
downward, so every read of row `i-1` sees its pre-pass value, which this
simultaneous functional update captures exactly. -/
def fpass (k j : Nat) (M : Nat → Nat → Int) : Nat → Nat → Int :=
  fun i t =>
    if j + 1 ≤ i ∧ i ≤ k - 1 ∧ j ≤ t ∧ t ≤ k then
      utilmod (M i t - cmod (M (i - 1) t * (M i j * nthinv (M (i - 1) j))) 257) 257
    else M i t

/-- Forward (echelon) phase of `findcoefficients`: column passes
`j = 0 .. k-2`. -/
def forwardphase (k : Nat) (M : Nat → Nat → Int) : Nat → Nat → Int :=
  (List.range (k - 1)).foldl (fun A j => fpass k j A) M

/-- One step of the back-substitution phase for row `i`: scale `mat[i][k]`
and `mat[i][i]` by `modinv[mat[i][i]]`, then for every row `t < i` subtract
`mat[i][k] * mat[t][i]` (with the freshly scaled `mat[i][k]`) from
`mat[t][k]` mod 257 and zero `mat[t][i]`. -/
def bstep (k : Nat) (M : Nat → Nat → Int) (i : Nat) : Nat → Nat → Int :=
  fun r t =>
    if r = i ∧ t = k then cmod (M i k * nthinv (M i i)) 257
    else if r = i ∧ t = i then cmod (M i i * nthinv (M i i)) 257
    else if r < i ∧ t = k then
      utilmod (M r k - cmod (cmod (M i k * nthinv (M i i)) 257 * M r i) 257) 257
    else if r < i ∧ t = i then 0
    else M r t

/-- Back-substitution phase of `findcoefficients`: rows `i = k-1` down
to `1`. -/
def backphase (k : Nat) (M : Nat → Nat → Int) : Nat → Nat → Int :=
  (((List.range (k - 1)).map fun m => m + 1).reverse).foldl (bstep k) M

/-- `findcoefficients(mat, k)` in bmpsss.c: forward elimination followed by
back substitution; the recovered coefficients end up in column `k`. -/
def findcoefficients (k : Nat) (M : Nat → Nat → Int) : Nat → Nat → Int :=
  backphase k (forwardphase k M)

theorem vandentry_eq_pow (x : Int) (t : Nat) : vandentry x t = x ^ t := by
  induction t with
  | zero => rfl
  | succ t ih => rw [vandentry, ih, pow_succ]

/-- C3 counterexample: with `k = 3` and a shadow of index 17, the assembled
matrix entry in column 2 is the unreduced power `17^2 = 289`, which is not
in `[0, 257)` and differs from `17^2 mod 257 = 32`: the code never reduces
the assembled powers. -/
theorem sharematrix_unreduced :
    buildmat 3 (fun _ => 17) (fun _ => 5) 0 2 = 289 ∧
    ¬(buildmat 3 (fun _ => 17) (fun _ => 5) 0 2 < 257) ∧
    ((17 : Int) ^ 2 % 257 = 32) ∧ buildmat 3 (fun _ => 17) (fun _ => 5) 0 2 ≠ 32 := by
  refine ⟨rfl, by decide, by decide, by decide⟩

/-- C3 amended: column `t < k` of row `i` of the assembled matrix equals the
exact, unreduced integer power `x_i^t` of shadow `i`'s index (not the power
mod 257, and not necessarily in `[0, 257)`), and column `k` holds shadow
`i`'s pixel value at the current group offset. -/
theorem sharematrix_assembly (k : Nat) (x pix : Nat → Int) (i t : Nat)
    (ht : t < k) :
    buildmat k x pix i t = x i ^ t ∧ buildmat k x pix i k = pix i := by
  constructor
  · rw [buildmat]
    simp only [ht, if_true]
    exact vandentry_eq_pow (x i) t
  · rw [buildmat]
    simp

/-- Witness for `sharematrix_assembly` at `k = 3`, index 17, column 2. -/
theorem sharematrix_assembly_witness :
    2 < 3 ∧
    (buildmat 3 (fun _ => 17) (fun _ => 5) 0 2 = (17 : Int) ^ 2 ∧
      buildmat 3 (fun _ => 17) (fun _ => 5) 0 3 = 5) :=
  ⟨by decide, sharematrix_assembly 3 (fun _ => 17) (fun _ => 5) 0 2 (by decide)⟩

/-- C8: the matrix of two shadows that share the index 1 (pixels 10 and 20)
drives the elimination into a zero pivot (`mat[1][1] = 0` after the forward
phase), yet `findcoefficients` raises no error: `modinv[0] = 0` silently
turns the scaling into multiplication by zero and the function returns the
bogus coefficients `a0 = 10`, `a1 = 0`, which do not even satisfy the second
input equation `a0 + a1 = 20`. -/
theorem zero_pivot_silent :
    (forwardphase 2 (buildmat 2 (fun _ => 1) (fun i => if i = 0 then (10 : Int) else 20))) 1 1 = 0 ∧
    (findcoefficients 2 (buildmat 2 (fun _ => 1) (fun i => if i = 0 then (10 : Int) else 20))) 0 2 = 10 ∧
    (findcoefficients 2 (buildmat 2 (fun _ => 1) (fun i => if i = 0 then (10 : Int) else 20))) 1 2 = 0 ∧
    (10 : Int) + 0 * 1 ≠ 20 := by
  refine ⟨by decide, by decide, by decide, by decide⟩

instance : Fact (Nat.Prime 257) := ⟨by norm_num⟩

/-- Carrier field GF(257) of the sharing arithmetic. -/
abbrev GF : Type := ZMod 257

/-- Complete homogeneous symmetric sum of degree `m` in the values of a
list, used to describe the rows produced by the forward elimination on a
Vandermonde matrix (divided differences of monomials). -/
def hpoly : Nat → List GF → GF
  | 0, _ => 1
  | _ + 1, [] => 0
  | m + 1, b :: l => b * hpoly m (b :: l) + hpoly (m + 1) l

theorem hpoly_nil (m : Nat) : hpoly (m + 1) ([] : List GF) = 0 := by
  simp [hpoly]

theorem hpoly_cons (m : Nat) (b : GF) (l : List GF) :
    hpoly (m + 1) (b :: l) = b * hpoly m (b :: l) + hpoly (m + 1) l := by
  simp [hpoly]

theorem hpoly_singleton (m : Nat) (y : GF) : hpoly m [y] = y ^ m := by
  induction m with
  | zero => simp [hpoly]
  | succ m ih => rw [hpoly_cons, ih, hpoly_nil, pow_succ]; ring

theorem hpoly_one (l : List GF) : hpoly 1 l = l.sum := by
  induction l with
  | nil => rw [show (1 : Nat) = 0 + 1 from rfl, hpoly_nil]; simp
  | cons b l ih =>
    rw [show (1 : Nat) = 0 + 1 from rfl] at ih ⊢
    rw [hpoly_cons, ih]
    simp [hpoly]

theorem hpoly_snoc (b : GF) :
    ∀ (m : Nat) (l : List GF),
      hpoly (m + 1) (l ++ [b]) = b * hpoly m (l ++ [b]) + hpoly (m + 1) l := by
  intro m
  induction m with
  | zero =>
    intro l
    rw [hpoly_one, hpoly_one]
    simp [hpoly]
    ring
  | succ m ihm =>
    intro l
    induction l with
    | nil =>
      rw [List.nil_append, hpoly_singleton, hpoly_singleton, hpoly_nil, pow_succ]
      ring
    | cons a l ihl =>
      have hX : hpoly (m + 1 + 1) (a :: (l ++ [b])) =
          a * hpoly (m + 1) (a :: (l ++ [b])) + hpoly (m + 1 + 1) (l ++ [b]) :=
        hpoly_cons (m + 1) a (l ++ [b])
      have hZ : hpoly (m + 1 + 1) (a :: l) =
          a * hpoly (m + 1) (a :: l) + hpoly (m + 1 + 1) l :=
        hpoly_cons (m + 1) a l
      have hY : hpoly (m + 1) (a :: (l ++ [b])) =
          a * hpoly m (a :: (l ++ [b])) + hpoly (m + 1) (l ++ [b]) :=
        hpoly_cons m a (l ++ [b])
      have houter := ihm (a :: l)
      simp only [List.cons_append] at houter ⊢
      rw [hX, ihl, hZ]
      linear_combination a * houter - b * hY

theorem hpoly_key (m : Nat) (a b : GF) (C : List GF) :
    hpoly (m + 1) (C ++ [b]) - hpoly (m + 1) (a :: C) =
      (b - a) * hpoly m (a :: (C ++ [b])) := by
  have hsnoc := hpoly_snoc b m (a :: C)
  have hcons := hpoly_cons m a (C ++ [b])
  simp only [List.cons_append] at hsnoc
  linear_combination hsnoc - hcons

/-- Node window `x l, x (l+1), ..., x (l+d)`. -/
def window (x : Nat → GF) (l d : Nat) : List GF :=
  (List.range (d + 1)).map fun m => x (l + m)

/-- Interior node window `x (l+1), ..., x (l+d)` (possibly empty). -/
def windowIn (x : Nat → GF) (l d : Nat) : List GF :=
  (List.range d).map fun m => x (l + 1 + m)

theorem window_zero (x : Nat → GF) (l : Nat) : window x l 0 = [x l] := by
  rw [window, List.range_succ]
  simp

theorem windowIn_snoc (x : Nat → GF) (l d : Nat) :
    windowIn x l (d + 1) = windowIn x l d ++ [x (l + d + 1)] := by
  rw [windowIn, List.range_succ, List.map_append, List.map_singleton]
  rw [show l + 1 + d = l + d + 1 from by omega]
  rfl

theorem window_eq_cons (x : Nat → GF) (l d : Nat) :
    window x l d = x l :: windowIn x l d := by
  rw [window, List.range_succ_eq_map, List.map_cons, Nat.add_zero, List.map_map]
  congr 1
  apply List.map_congr_left
  intro m _
  simp only [Function.comp_apply]
  congr 1
  omega

theorem window_eq_snoc (x : Nat → GF) (l d : Nat) :
    window x (l + 1) d = windowIn x l d ++ [x (l + d + 1)] := by
  rw [← windowIn_snoc, windowIn, window]

/-- Divided-difference rows of the Vandermonde-augmented system, defined by
the adjacent-window recurrence.  `ddrow k x p d l t` is column `t` of the
divided difference of the initial row family over the nodes
`x l .. x (l+d)`. -/
def ddrow (k : Nat) (x : Nat → GF) (p : Nat → GF) : Nat → Nat → Nat → GF
  | 0, l, t => if t < k then x l ^ t else p l
  | d + 1, l, t =>
    (x (l + d + 1) - x l)⁻¹ * (ddrow k x p d (l + 1) t - ddrow k x p d l t)

theorem ddrow_zero (k : Nat) (x p : Nat → GF) (l t : Nat) :
    ddrow k x p 0 l t = if t < k then x l ^ t else p l := by
  simp [ddrow]

theorem ddrow_succ (k : Nat) (x p : Nat → GF) (d l t : Nat) :
    ddrow k x p (d + 1) l t =
      (x (l + d + 1) - x l)⁻¹ * (ddrow k x p d (l + 1) t - ddrow k x p d l t) := by
  simp [ddrow]

theorem ddrow_hpoly (k : Nat) (x p : Nat → GF) (hk : 1 ≤ k)
    (hdist : ∀ i, i ≤ k - 1 → ∀ j, j ≤ k - 1 → i ≠ j → x i ≠ x j) :
    ∀ d l t, l + d ≤ k - 1 → d ≤ t → t ≤ k - 1 →
      ddrow k x p d l t = hpoly (t - d) (window x l d) := by
  intro d
  induction d with
  | zero =>
    intro l t hlk hdt htk
    rw [ddrow_zero, window_zero, hpoly_singleton, if_pos (by omega), Nat.sub_zero]
  | succ d ih =>
    intro l t hlk hdt htk
    have hne : x (l + d + 1) ≠ x l :=
      hdist (l + d + 1) (by omega) l (by omega) (by omega)
    rw [ddrow_succ, ih (l + 1) t (by omega) (by omega) htk,
      ih l t (by omega) (by omega) htk]
    have ht : t - d = (t - (d + 1)) + 1 := by omega
    rw [ht, window_eq_snoc x l d, window_eq_cons x l d,
      hpoly_key (t - (d + 1)) (x l) (x (l + d + 1)) (windowIn x l d)]
    rw [← mul_assoc, inv_mul_cancel₀ (sub_ne_zero.mpr hne), one_mul]
    rw [window_eq_cons x l (d + 1), windowIn_snoc]

theorem ddrow_diag (k : Nat) (x p : Nat → GF) (hk : 1 ≤ k)
    (hdist : ∀ i, i ≤ k - 1 → ∀ j, j ≤ k - 1 → i ≠ j → x i ≠ x j)
    (d l : Nat) (hlk : l + d ≤ k - 1) : ddrow k x p d l d = 1 := by
  rw [ddrow_hpoly k x p hk hdist d l d hlk (Nat.le_refl d) (by omega)]
  simp [hpoly]

theorem ddrow_low (k : Nat) (x p : Nat → GF) (hk : 1 ≤ k)
    (hdist : ∀ i, i ≤ k - 1 → ∀ j, j ≤ k - 1 → i ≠ j → x i ≠ x j) :
    ∀ d l t, l + d ≤ k - 1 → t < d → ddrow k x p d l t = 0 := by
  intro d
  induction d with
  | zero => intro l t _ ht; omega
  | succ d ih =>
    intro l t hlk ht
    rw [ddrow_succ]
    rcases Nat.lt_or_ge t d with htd | htd
    · rw [ih (l + 1) t (by omega) htd, ih l t (by omega) htd]
      simp
    · have htd' : t = d := by omega
      subst htd'
      rw [ddrow_diag k x p hk hdist t (l + 1) (by omega),
        ddrow_diag k x p hk hdist t l (by omega)]
      simp

theorem ddrow_data (k : Nat) (x p : Nat → GF) (a : Nat → GF) (hk : 1 ≤ k)
    (hp : ∀ i, i ≤ k - 1 →
      p i = Finset.sum (Finset.range k) fun r => a r * x i ^ r) :
    ∀ d l, l + d ≤ k - 1 →
      ddrow k x p d l k =
        Finset.sum (Finset.range k) fun r => a r * ddrow k x p d l r := by
  intro d
  induction d with
  | zero =>
    intro l hl
    rw [ddrow_zero, if_neg (by omega), hp l (by omega)]
    apply Finset.sum_congr rfl
    intro r hr
    rw [ddrow_zero, if_pos (List.mem_range.mp (by simpa using hr))]
  | succ d ih =>
    intro l hl
    rw [ddrow_succ, ih (l + 1) (by omega), ih l (by omega),
      ← Finset.sum_sub_distrib, Finset.mul_sum]
    apply Finset.sum_congr rfl
    intro r _
    rw [ddrow_succ]
    ring

/-- Nonzero scale factor accumulated by the forward elimination on row `i`
after `j` column passes: the product of `x i - x (i-1), ..., x i - x (i-j)`. -/
def cfac (x : Nat → GF) (i j : Nat) : GF :=
  Finset.prod (Finset.range j) fun m => x i - x (i - (m + 1))

theorem cfac_zero (x : Nat → GF) (i : Nat) : cfac x i 0 = 1 := by
  simp [cfac]

theorem cfac_succ (x : Nat → GF) (i j : Nat) :
    cfac x i (j + 1) = cfac x i j * (x i - x (i - (j + 1))) :=
  Finset.prod_range_succ _ j

theorem cfac_ne_zero (k : Nat) (x : Nat → GF)
    (hdist : ∀ i, i ≤ k - 1 → ∀ j, j ≤ k - 1 → i ≠ j → x i ≠ x j)
    (i j : Nat) (hij : j ≤ i) (hik : i ≤ k - 1) : cfac x i j ≠ 0 := by
  rw [cfac, Finset.prod_ne_zero_iff]
  intro m hm
  apply sub_ne_zero.mpr
  apply hdist i hik (i - (m + 1)) (by omega)
  have := List.mem_range.mp (by simpa using hm)
  omega

/-- Image of the assembled matrix in GF(257): row `i` is
`[1, x_i, ..., x_i^(k-1) | p_i]`. -/
def matF (k : Nat) (x p : Nat → GF) : Nat → Nat → GF :=
  fun i t => if t < k then x i ^ t else p i

/-- Field-level mirror of one forward column pass of `findcoefficients`. -/
def fpassF (k j : Nat) (M : Nat → Nat → GF) : Nat → Nat → GF :=
  fun i t =>
    if j + 1 ≤ i ∧ i ≤ k - 1 ∧ j ≤ t ∧ t ≤ k then
      M i t - M (i - 1) t * (M i j * (M (i - 1) j)⁻¹)
    else M i t

/-- First `m` field-level column passes. -/
def forwardAuxF (k m : Nat) (M : Nat → Nat → GF) : Nat → Nat → GF :=
  (List.range m).foldl (fun A j => fpassF k j A) M

/-- Field-level mirror of the forward phase (`k-1` column passes). -/
def forwardF (k : Nat) (M : Nat → Nat → GF) : Nat → Nat → GF :=
  forwardAuxF k (k - 1) M

theorem forwardAuxF_succ (k m : Nat) (M : Nat → Nat → GF) :
    forwardAuxF k (m + 1) M = fpassF k m (forwardAuxF k m M) := by
  rw [forwardAuxF, forwardAuxF, List.range_succ, List.foldl_append,
    List.foldl_cons, List.foldl_nil]

/-- Shape of the matrix during the field-level forward phase: after `m`
column passes, row `i` is the `cfac`-multiple of the divided-difference row
over the node window ending at `i` of width `min i m`. -/
theorem forwardAuxF_eq (k : Nat) (x p : Nat → GF) (hk : 2 ≤ k)
    (hdist : ∀ i, i ≤ k - 1 → ∀ j, j ≤ k - 1 → i ≠ j → x i ≠ x j) :
    ∀ m, m ≤ k - 1 → ∀ i, i ≤ k - 1 → ∀ t, t ≤ k →
      forwardAuxF k m (matF k x p) i t =
        cfac x i (min i m) * ddrow k x p (min i m) (i - min i m) t := by
  intro m
  induction m with
  | zero =>
    intro _ i hik t htk
    rw [forwardAuxF]
    simp only [List.range_zero, List.foldl_nil]
    rw [Nat.min_zero, cfac_zero, ddrow_zero, one_mul, Nat.sub_zero]
    rfl
  | succ m ih =>
    intro hm1 i hik t htk
    have hm : m ≤ k - 1 := by omega
    rw [forwardAuxF_succ]
    rcases Nat.lt_or_ge i (m + 1) with him | him
    · -- finished row: the pass does not touch it
      have hg : ¬(m + 1 ≤ i ∧ i ≤ k - 1 ∧ m ≤ t ∧ t ≤ k) := by omega
      rw [fpassF]
      simp only [hg, if_false]
      rw [ih hm i hik t htk,
        Nat.min_eq_left (show i ≤ m from by omega),
        Nat.min_eq_left (show i ≤ m + 1 from by omega)]
    · rcases Nat.lt_or_ge t m with htm | htm
      · -- entry left of the processed columns: both sides vanish
        have hg : ¬(m + 1 ≤ i ∧ i ≤ k - 1 ∧ m ≤ t ∧ t ≤ k) := by omega
        rw [fpassF]
        simp only [hg, if_false]
        rw [ih hm i hik t htk,
          Nat.min_eq_right (show m ≤ i from by omega),
          Nat.min_eq_right (show m + 1 ≤ i from by omega)]
        rw [ddrow_low k x p (by omega) hdist m (i - m) t (by omega) htm,
          ddrow_low k x p (by omega) hdist (m + 1) (i - (m + 1)) t (by omega) (by omega)]
        simp
      · -- updated entry
        have hg : m + 1 ≤ i ∧ i ≤ k - 1 ∧ m ≤ t ∧ t ≤ k := by omega
        rw [fpassF]
        simp only [hg, and_self, if_true]
        have e_it := ih hm i hik t htk
        have e_i1t := ih hm (i - 1) (by omega) t htk
        have e_im := ih hm i hik m (by omega)
        have e_i1m := ih hm (i - 1) (by omega) m (by omega)
        rw [Nat.min_eq_right (show m ≤ i from by omega)] at e_it e_im
        rw [Nat.min_eq_right (show m ≤ i - 1 from by omega)] at e_i1t e_i1m
        rw [ddrow_diag k x p (by omega) hdist m (i - m) (by omega)] at e_im
        rw [ddrow_diag k x p (by omega) hdist m (i - 1 - m) (by omega)] at e_i1m
        rw [mul_one] at e_im e_i1m
        have hC1 : cfac x (i - 1) m ≠ 0 :=
          cfac_ne_zero k x hdist (i - 1) m (by omega) (by omega)
        have hxne : x i - x (i - m - 1) ≠ 0 :=
          sub_ne_zero.mpr (hdist i hik (i - m - 1) (by omega) (by omega))
        have hrec : ddrow k x p m (i - m) t - ddrow k x p m (i - m - 1) t =
            (x i - x (i - m - 1)) * ddrow k x p (m + 1) (i - m - 1) t := by
          have h := ddrow_succ k x p m (i - m - 1) t
          rw [show i - m - 1 + m + 1 = i from by omega,
            show i - m - 1 + 1 = i - m from by omega] at h
          rw [h, ← mul_assoc, mul_inv_cancel₀ hxne, one_mul]
        rw [e_it, e_i1t, e_im, e_i1m,
          Nat.min_eq_right (show m + 1 ≤ i from by omega)]
        rw [show i - 1 - m = i - m - 1 from by omega]
        rw [cfac_succ, show i - (m + 1) = i - m - 1 from by omega]
        have hfield : cfac x (i - 1) m * ddrow k x p m (i - m - 1) t *
            (cfac x i m * (cfac x (i - 1) m)⁻¹) =
            cfac x i m * ddrow k x p m (i - m - 1) t := by
          field_simp
          ring
        rw [hfield, ← mul_sub, hrec]
        ring

/-- Field-level mirror of one back-substitution step of `findcoefficients`. -/
def bstepF (k : Nat) (M : Nat → Nat → GF) (i : Nat) : Nat → Nat → GF :=
  fun r t =>
    if r = i ∧ t = k then M i k * (M i i)⁻¹
    else if r = i ∧ t = i then M i i * (M i i)⁻¹
    else if r < i ∧ t = k then M r k - M i k * (M i i)⁻¹ * M r i
    else if r < i ∧ t = i then 0
    else M r t

/-- First `s` field-level back-substitution steps (rows `k-1, ..., k-s`). -/
def backAuxF (k s : Nat) (M : Nat → Nat → GF) : Nat → Nat → GF :=
  ((List.range s).map fun m => k - 1 - m).foldl (bstepF k) M

/-- Field-level mirror of the back-substitution phase. -/
def backF (k : Nat) (M : Nat → Nat → GF) : Nat → Nat → GF :=
  (((List.range (k - 1)).map fun m => m + 1).reverse).foldl (bstepF k) M

theorem reverse_map_add_one (n : Nat) :
    ((List.range n).map fun m => m + 1).reverse = (List.range n).map fun m => n - m := by
  induction n with
  | zero => rfl
  | succ n ih =>
    have hL : ((List.range (n + 1)).map fun m => m + 1).reverse =
        (n + 1) :: ((List.range n).map fun m => n - m) := by
      rw [List.range_succ, List.map_append, List.reverse_append, ih]
      simp
    have hR : ((List.range (n + 1)).map fun m => n + 1 - m) =
        (n + 1) :: ((List.range n).map fun m => n - m) := by
      rw [List.range_succ_eq_map, List.map_cons, List.map_map, Nat.sub_zero]
      congr 1
      apply List.map_congr_left
      intro m _
      simp only [Function.comp_apply]
      omega
    rw [hL, hR]

theorem backF_eq_backAuxF (k : Nat) (M : Nat → Nat → GF) :
    backF k M = backAuxF k (k - 1) M := by
  rw [backF, backAuxF, reverse_map_add_one]

theorem backAuxF_succ (k s : Nat) (M : Nat → Nat → GF) :
    backAuxF k (s + 1) M = bstepF k (backAuxF k s M) (k - 1 - s) := by
  rw [backAuxF, backAuxF, List.range_succ, List.map_append, List.foldl_append,
    List.map_singleton, List.foldl_cons, List.foldl_nil]

theorem bstepF_at_ik (k : Nat) (M : Nat → Nat → GF) (i : Nat) :
    bstepF k M i i k = M i k * (M i i)⁻¹ := by
  unfold bstepF
  rw [if_pos ⟨rfl, rfl⟩]

theorem bstepF_at_diag (k : Nat) (M : Nat → Nat → GF) (i : Nat) (hik : i ≠ k) :
    bstepF k M i i i = M i i * (M i i)⁻¹ := by
  unfold bstepF
  rw [if_neg fun h => hik h.2, if_pos ⟨rfl, rfl⟩]

theorem bstepF_rowi_other (k : Nat) (M : Nat → Nat → GF) (i t : Nat)
    (htk : t ≠ k) (hti : t ≠ i) : bstepF k M i i t = M i t := by
  unfold bstepF
  rw [if_neg fun h => htk h.2, if_neg fun h => hti h.2,
    if_neg fun h => Nat.lt_irrefl i h.1, if_neg fun h => Nat.lt_irrefl i h.1]

theorem bstepF_below_k (k : Nat) (M : Nat → Nat → GF) (i r : Nat) (hri : r < i) :
    bstepF k M i r k = M r k - M i k * (M i i)⁻¹ * M r i := by
  unfold bstepF
  rw [if_neg fun h => absurd h.1 (by omega), if_neg fun h => absurd h.1 (by omega),
    if_pos ⟨hri, rfl⟩]

theorem bstepF_below_i (k : Nat) (M : Nat → Nat → GF) (i r : Nat) (hri : r < i)
    (hik : i ≠ k) : bstepF k M i r i = 0 := by
  unfold bstepF
  rw [if_neg fun h => absurd h.1 (by omega), if_neg fun h => absurd h.1 (by omega),
    if_neg fun h => hik h.2, if_pos ⟨hri, rfl⟩]

theorem bstepF_above (k : Nat) (M : Nat → Nat → GF) (i r t : Nat) (hri : i < r) :
    bstepF k M i r t = M r t := by
  unfold bstepF
  rw [if_neg fun h => absurd h.1 (by omega), if_neg fun h => absurd h.1 (by omega),
    if_neg fun h => absurd h.1 (by omega), if_neg fun h => absurd h.1 (by omega)]

theorem bstepF_skip (k : Nat) (M : Nat → Nat → GF) (i r t : Nat)
    (htk : t ≠ k) (hti : t ≠ i) : bstepF k M i r t = M r t := by
  unfold bstepF
  rw [if_neg fun h => htk h.2, if_neg fun h => hti h.2,
    if_neg fun h => htk h.2, if_neg fun h => hti h.2]

/-- Invariant of the field-level back substitution on an upper-triangular
system with non-vanishing diagonal whose rows all agree with the solution
vector `a`: after `s` steps the bottom `s` rows are diagonalized with their
solution entries in column `k`, and the remaining rows keep their original
left part, have zeros in the processed columns, and still agree with `a`. -/
theorem backAuxF_inv (k : Nat) (a : Nat → GF) (U : Nat → Nat → GF) (hk : 2 ≤ k)
    (hup : ∀ i, i ≤ k - 1 → ∀ t, t < i → U i t = 0)
    (hdiag : ∀ i, i ≤ k - 1 → U i i ≠ 0)
    (hsol : ∀ i, i ≤ k - 1 →
      U i k = Finset.sum (Finset.range k) fun r => a r * U i r) :
    ∀ s, s ≤ k - 1 →
      (∀ r, k - s ≤ r → r ≤ k - 1 →
        backAuxF k s U r k = a r ∧
        (∀ t, t ≤ k - 1 → backAuxF k s U r t = if t = r then 1 else 0)) ∧
      (∀ r, r ≤ k - 1 - s → ∀ t, t ≤ k - 1 - s → backAuxF k s U r t = U r t) ∧
      (∀ r, r ≤ k - 1 - s → ∀ t, k - s ≤ t → t ≤ k - 1 → backAuxF k s U r t = 0) ∧
      (∀ r, r ≤ k - 1 - s →
        backAuxF k s U r k =
          Finset.sum (Finset.range k) fun q => a q * backAuxF k s U r q) := by
  intro s
  induction s with
  | zero =>
    intro _
    exact ⟨fun r hr1 hr2 => by omega, fun r hr t ht => rfl,
      fun r hr t ht1 ht2 => by omega, fun r hr => hsol r (by omega)⟩
  | succ s ihs =>
    intro hs1
    obtain ⟨ih1, ih2, ih3, ih4⟩ := ihs (by omega)
    have hi1 : 1 ≤ k - 1 - s := by omega
    have hik : k - 1 - s ≤ k - 1 := by omega
    have hine : k - 1 - s ≠ k := by omega
    set i := k - 1 - s with hi
    set B := backAuxF k s U with hB
    have hBii : B i i = U i i := ih2 i (by omega) i (by omega)
    have hdne : B i i ≠ 0 := by rw [hBii]; exact hdiag i hik
    have hrowi : B i k = a i * B i i := by
      rw [ih4 i (by omega)]
      rw [Finset.sum_eq_single i]
      · intro q hq hqi
        rcases Nat.lt_or_ge q i with hqlt | hqge
        · rw [ih2 i (by omega) q (by omega), hup i hik q hqlt, mul_zero]
        · have hq1 : k - s ≤ q := by omega
          rw [ih3 i (by omega) q hq1 (by have := Finset.mem_range.mp hq; omega),
            mul_zero]
      · intro hmem
        exact absurd (Finset.mem_range.mpr (by omega : i < k)) hmem
    have haik : B i k * (B i i)⁻¹ = a i := by
      rw [hrowi, mul_assoc, mul_inv_cancel₀ hdne, mul_one]
    rw [backAuxF_succ k s U, ← hB, ← hi]
    refine ⟨?_, ?_, ?_, ?_⟩
    · -- P1: diagonalized rows
      intro r hr1 hr2
      rcases Nat.lt_or_ge i r with hir | hir
      · obtain ⟨h1, h2⟩ := ih1 r (by omega) hr2
        refine ⟨by rw [bstepF_above k B i r k hir]; exact h1, ?_⟩
        intro t ht
        rw [bstepF_above k B i r t hir]
        exact h2 t ht
      · have hri : r = i := by omega
        rw [hri]
        refine ⟨by rw [bstepF_at_ik]; exact haik, ?_⟩
        intro t ht
        by_cases hti : t = i
        · rw [hti, bstepF_at_diag k B i hine, mul_inv_cancel₀ hdne, if_pos rfl]
        · rw [bstepF_rowi_other k B i t (by omega) hti, if_neg hti]
          rcases Nat.lt_or_ge t i with htlt | htge
          · rw [ih2 i (by omega) t (by omega)]
            exact hup i hik t htlt
          · exact ih3 i (by omega) t (by omega) ht
    · -- P2: untouched left block
      intro r hr t ht
      rw [bstepF_skip k B i r t (by omega) (by omega)]
      exact ih2 r (by omega) t (by omega)
    · -- P3: processed columns vanish on the remaining rows
      intro r hr t ht1 ht2
      by_cases hti : t = i
      · rw [hti]
        exact bstepF_below_i k B i r (by omega) hine
      · rw [bstepF_skip k B i r t (by omega) hti]
        exact ih3 r (by omega) t (by omega) ht2
    · -- P4: remaining rows still agree with the solution vector
      intro r hr
      have hrlt : r < i := by omega
      rw [bstepF_below_k k B i r hrlt, haik]
      have hsplit : ∀ q ∈ Finset.range k,
          a q * bstepF k B i r q = a q * B r q - (if q = i then a i * B r i else 0) := by
        intro q hq
        by_cases hqi : q = i
        · rw [hqi, bstepF_below_i k B i r hrlt hine, if_pos rfl]
          ring
        · rw [bstepF_skip k B i r q (by have := Finset.mem_range.mp hq; omega) hqi,
            if_neg hqi, sub_zero]
      rw [Finset.sum_congr rfl hsplit, Finset.sum_sub_distrib]
      rw [Finset.sum_ite_eq' (Finset.range k) i fun _ => a i * B r i]
      rw [if_pos (Finset.mem_range.mpr (by omega : i < k))]
      rw [← ih4 r (by omega)]

/-- Field-level correctness of the elimination: started on the GF(257) image
of the assembled matrix of `k` shadows with pairwise distinct indices whose
pixels interpolate the coefficient vector `a`, the two phases leave `a r` in
column `k` of row `r`. -/
theorem elimF_correct (k : Nat) (x p a : Nat → GF) (hk : 2 ≤ k)
    (hdist : ∀ i, i ≤ k - 1 → ∀ j, j ≤ k - 1 → i ≠ j → x i ≠ x j)
    (hp : ∀ i, i ≤ k - 1 →
      p i = Finset.sum (Finset.range k) fun r => a r * x i ^ r) :
    ∀ r, r ≤ k - 1 → backF k (forwardF k (matF k x p)) r k = a r := by
  have hk1 : 1 ≤ k := by omega
  set U := forwardF k (matF k x p) with hU
  have hUeq : ∀ i, i ≤ k - 1 → ∀ t, t ≤ k →
      U i t = cfac x i i * ddrow k x p i 0 t := by
    intro i hik t htk
    have h := forwardAuxF_eq k x p hk hdist (k - 1) (Nat.le_refl _) i hik t htk
    rw [Nat.min_eq_left hik, Nat.sub_self] at h
    exact h
  have hup : ∀ i, i ≤ k - 1 → ∀ t, t < i → U i t = 0 := by
    intro i hik t hti
    rw [hUeq i hik t (by omega),
      ddrow_low k x p hk1 hdist i 0 t (by omega) hti, mul_zero]
  have hdiagU : ∀ i, i ≤ k - 1 → U i i ≠ 0 := by
    intro i hik
    rw [hUeq i hik i (by omega), ddrow_diag k x p hk1 hdist i 0 (by omega), mul_one]
    exact cfac_ne_zero k x hdist i i (Nat.le_refl i) hik
  have hsolU : ∀ i, i ≤ k - 1 →
      U i k = Finset.sum (Finset.range k) fun r => a r * U i r := by
    intro i hik
    rw [hUeq i hik k (Nat.le_refl k),
      ddrow_data k x p a hk1 hp i 0 (by omega), Finset.mul_sum]
    apply Finset.sum_congr rfl
    intro r hr
    rw [hUeq i hik r (by have := Finset.mem_range.mp hr; omega)]
    ring
  have h00 : U 0 0 = 1 := by
    rw [hUeq 0 (by omega) 0 (by omega), cfac_zero, ddrow_zero,
      if_pos (by omega : 0 < k), pow_zero, one_mul]
  obtain ⟨P1, P2, P3, P4⟩ :=
    backAuxF_inv k a U hk hup hdiagU hsolU (k - 1) (Nat.le_refl _)
  intro r hrk
  rw [backF_eq_backAuxF]
  rcases Nat.eq_zero_or_pos r with hr0 | hrpos
  · rw [hr0]
    rw [P4 0 (by omega)]
    rw [Finset.sum_eq_single 0]
    · rw [P2 0 (by omega) 0 (by omega), h00, mul_one]
    · intro q hq hq0
      rw [P3 0 (by omega) q (by omega) (by have := Finset.mem_range.mp hq; omega),
        mul_zero]
    · intro hmem
      exact absurd (Finset.mem_range.mpr (by omega : 0 < k)) hmem
  · exact (P1 r (by omega) hrk).1

/-- GF(257) image of an integer matrix. -/
def castM (M : Nat → Nat → Int) : Nat → Nat → GF := fun i t => ((M i t : Int) : GF)

theorem gf_cast_mod257 (x : Int) : ((x % 257 : Int) : GF) = (x : GF) := by
  have h := ZMod.intCast_mod x 257
  simpa using h

theorem gf_cast_utilmod (x : Int) : ((utilmod x 257 : Int) : GF) = (x : GF) :=
  gf_cast_mod257 x

theorem utilmod_nonneg (x : Int) : 0 ≤ utilmod x 257 :=
  Int.emod_nonneg x (by norm_num)

theorem utilmod_lt (x : Int) : utilmod x 257 < 257 :=
  Int.emod_lt_of_pos x (by norm_num)

theorem cmod_eq_emod (x : Int) (hx : 0 ≤ x) : cmod x 257 = x % 257 :=
  Int.tmod_eq_emod hx (by norm_num)

theorem gf_cast_cmod (x : Int) (hx : 0 ≤ x) : ((cmod x 257 : Int) : GF) = (x : GF) := by
  rw [cmod_eq_emod x hx]
  exact gf_cast_mod257 x

theorem cmod_nonneg (x : Int) (hx : 0 ≤ x) : 0 ≤ cmod x 257 :=
  Int.tmod_nonneg 257 hx

theorem cmod_lt (x : Int) : cmod x 257 < 257 :=
  Int.tmod_lt_of_pos x (by norm_num)

theorem nthinv_nonneg (v : Int) : 0 ≤ nthinv v := by
  rw [nthinv]
  split
  · exact Int.natCast_nonneg _
  · exact Int.le_refl 0

set_option maxRecDepth 4000 in
theorem modinvTable_getD_zero : modinvTable.getD 0 0 = 0 := by decide

theorem nthinv_cast (v : Int) (h0 : 0 ≤ v) (h1 : v < 257) :
    ((nthinv v : Int) : GF) = ((v : GF))⁻¹ := by
  lift v to Nat using h0 with m hm
  have hm257 : m < 257 := by exact_mod_cast h1
  rw [nthinv, if_pos ⟨Int.natCast_nonneg m, h1⟩]
  rw [Int.toNat_natCast]
  by_cases hm0 : m = 0
  · rw [hm0, modinvTable_getD_zero]
    norm_num
  · have hmul := modinv_correct m hm257 (by omega)
    have hgf : ((m : GF)) * ((modinvTable.getD m 0 : Nat) : GF) = 1 := by
      calc ((m : GF)) * ((modinvTable.getD m 0 : Nat) : GF)
          = ((m * modinvTable.getD m 0 : Nat) : GF) := by push_cast; ring
      _ = ((m * modinvTable.getD m 0 % 257 : Nat) : GF) := (ZMod.natCast_mod _ 257).symm
      _ = ((1 : Nat) : GF) := by rw [hmul]
      _ = 1 := Nat.cast_one
    have := eq_inv_of_mul_eq_one_left (mul_comm ((m : GF)) _ ▸ hgf)
    push_cast
    exact this

/-- First `m` integer-level forward column passes. -/
def forwardAux (k m : Nat) (M : Nat → Nat → Int) : Nat → Nat → Int :=
  (List.range m).foldl (fun A j => fpass k j A) M

theorem forwardphase_eq_aux (k : Nat) (M : Nat → Nat → Int) :
    forwardphase k M = forwardAux k (k - 1) M := rfl

theorem forwardAux_succ (k m : Nat) (M : Nat → Nat → Int) :
    forwardAux k (m + 1) M = fpass k m (forwardAux k m M) := by
  rw [forwardAux, forwardAux, List.range_succ, List.foldl_append,
    List.foldl_cons, List.foldl_nil]

/-- First `s` integer-level back-substitution steps. -/
def backAux (k s : Nat) (M : Nat → Nat → Int) : Nat → Nat → Int :=
  ((List.range s).map fun m => k - 1 - m).foldl (bstep k) M

theorem backphase_eq_aux (k : Nat) (M : Nat → Nat → Int) :
    backphase k M = backAux k (k - 1) M := by
  rw [backphase, backAux, reverse_map_add_one]

theorem backAux_succ (k s : Nat) (M : Nat → Nat → Int) :
    backAux k (s + 1) M = bstep k (backAux k s M) (k - 1 - s) := by
  rw [backAux, backAux, List.range_succ, List.map_append, List.foldl_append,
    List.map_singleton, List.foldl_cons, List.foldl_nil]

theorem bstep_at_ik (k : Nat) (M : Nat → Nat → Int) (i : Nat) :
    bstep k M i i k = cmod (M i k * nthinv (M i i)) 257 := by
  unfold bstep
  rw [if_pos ⟨rfl, rfl⟩]

theorem bstep_at_diag (k : Nat) (M : Nat → Nat → Int) (i : Nat) (hik : i ≠ k) :
    bstep k M i i i = cmod (M i i * nthinv (M i i)) 257 := by
  unfold bstep
  rw [if_neg fun h => hik h.2, if_pos ⟨rfl, rfl⟩]

theorem bstep_rowi_other (k : Nat) (M : Nat → Nat → Int) (i t : Nat)
    (htk : t ≠ k) (hti : t ≠ i) : bstep k M i i t = M i t := by
  unfold bstep
  rw [if_neg fun h => htk h.2, if_neg fun h => hti h.2,
    if_neg fun h => Nat.lt_irrefl i h.1, if_neg fun h => Nat.lt_irrefl i h.1]

theorem bstep_below_k (k : Nat) (M : Nat → Nat → Int) (i r : Nat) (hri : r < i) :
    bstep k M i r k =
      utilmod (M r k - cmod (cmod (M i k * nthinv (M i i)) 257 * M r i) 257) 257 := by
  unfold bstep
  rw [if_neg fun h => absurd h.1 (by omega), if_neg fun h => absurd h.1 (by omega),
    if_pos ⟨hri, rfl⟩]

theorem bstep_below_i (k : Nat) (M : Nat → Nat → Int) (i r : Nat) (hri : r < i)
    (hik : i ≠ k) : bstep k M i r i = 0 := by
  unfold bstep
  rw [if_neg fun h => absurd h.1 (by omega), if_neg fun h => absurd h.1 (by omega),
    if_neg fun h => hik h.2, if_pos ⟨hri, rfl⟩]

theorem bstep_above (k : Nat) (M : Nat → Nat → Int) (i r t : Nat) (hri : i < r) :
    bstep k M i r t = M r t := by
  unfold bstep
  rw [if_neg fun h => absurd h.1 (by omega), if_neg fun h => absurd h.1 (by omega),
    if_neg fun h => absurd h.1 (by omega), if_neg fun h => absurd h.1 (by omega)]

theorem bstep_skip (k : Nat) (M : Nat → Nat → Int) (i r t : Nat)
    (htk : t ≠ k) (hti : t ≠ i) : bstep k M i r t = M r t := by
  unfold bstep
  rw [if_neg fun h => htk h.2, if_neg fun h => hti h.2,
    if_neg fun h => htk h.2, if_neg fun h => hti h.2]

/-- Commutation of the integer forward phase with its field mirror, together
with the range facts that justify every `modinv` table access: entries stay
non-negative, and after at least one pass the rows below the first are fully
reduced into `[0, 257)`. -/
theorem forward_commutes (k : Nat) (M0 : Nat → Nat → Int) (hk : 2 ≤ k)
    (hnn : ∀ i t, 0 ≤ M0 i t) (hcol : ∀ i, M0 i 0 = 1) :
    ∀ m, m ≤ k - 1 →
      (∀ i t, ((forwardAux k m M0 i t : Int) : GF) = forwardAuxF k m (castM M0) i t) ∧
      (∀ i t, 0 ≤ forwardAux k m M0 i t) ∧
      (∀ i t, 1 ≤ m → 1 ≤ i → i ≤ k - 1 → t ≤ k → forwardAux k m M0 i t < 257) := by
  intro m
  induction m with
  | zero =>
    intro _
    exact ⟨fun i t => rfl, hnn, fun i t h1 => by omega⟩
  | succ m ihm =>
    intro hm1
    obtain ⟨ihc, ihn, ihr⟩ := ihm (by omega)
    set A := forwardAux k m M0 with hA
    set AF := forwardAuxF k m (castM M0) with hAF
    have hpiv : ∀ i, m + 1 ≤ i → i ≤ k - 1 → 0 ≤ A (i - 1) m ∧ A (i - 1) m < 257 := by
      intro i him hik
      rcases Nat.eq_zero_or_pos m with hm0 | hmpos
      · subst hm0
        have : A (i - 1) 0 = 1 := by
          rw [hA, forwardAux]
          simp only [List.range_zero, List.foldl_nil]
          exact hcol (i - 1)
        omega
      · exact ⟨ihn (i - 1) m, ihr (i - 1) m hmpos (by omega) (by omega) (by omega)⟩
    rw [forwardAux_succ, forwardAuxF_succ]
    refine ⟨?_, ?_, ?_⟩
    · intro i t
      by_cases hg : m + 1 ≤ i ∧ i ≤ k - 1 ∧ m ≤ t ∧ t ≤ k
      · rw [fpass, fpassF]
        rw [if_pos hg, if_pos hg]
        obtain ⟨hpiv1, hpiv2⟩ := hpiv i hg.1 hg.2.1
        have hprod : (0 : Int) ≤ A (i - 1) t * (A i m * nthinv (A (i - 1) m)) :=
          mul_nonneg (ihn _ _) (mul_nonneg (ihn _ _) (nthinv_nonneg _))
        rw [gf_cast_utilmod, Int.cast_sub, gf_cast_cmod _ hprod]
        rw [Int.cast_mul, Int.cast_mul]
        rw [nthinv_cast (A (i - 1) m) hpiv1 hpiv2]
        rw [ihc i t, ihc (i - 1) t, ihc i m, ihc (i - 1) m]
      · rw [fpass, fpassF]
        rw [if_neg hg, if_neg hg]
        exact ihc i t
    · intro i t
      by_cases hg : m + 1 ≤ i ∧ i ≤ k - 1 ∧ m ≤ t ∧ t ≤ k
      · rw [fpass, if_pos hg]
        exact utilmod_nonneg _
      · rw [fpass, if_neg hg]
        exact ihn i t
    · intro i t _ h1i hik htk
      by_cases hg : m + 1 ≤ i ∧ i ≤ k - 1 ∧ m ≤ t ∧ t ≤ k
      · rw [fpass, if_pos hg]
        exact utilmod_lt _
      · rw [fpass, if_neg hg]
        have hcase : i ≤ m ∨ t < m := by omega
        have hmpos : 1 ≤ m := by omega
        exact ihr i t hmpos h1i hik htk

/-- Commutation of the integer back substitution with its field mirror,
plus the range facts: entries stay non-negative, reduced rows stay reduced,
and after at least one step the whole of column `k` is reduced. -/
theorem back_commutes (k : Nat) (M : Nat → Nat → Int) (hk : 2 ≤ k)
    (hnn : ∀ i t, 0 ≤ M i t)
    (hred : ∀ i t, 1 ≤ i → i ≤ k - 1 → t ≤ k → M i t < 257) :
    ∀ s, s ≤ k - 1 →
      (∀ r t, ((backAux k s M r t : Int) : GF) = backAuxF k s (castM M) r t) ∧
      (∀ r t, 0 ≤ backAux k s M r t) ∧
      (∀ r t, 1 ≤ r → r ≤ k - 1 → t ≤ k → backAux k s M r t < 257) ∧
      (1 ≤ s → ∀ r, r ≤ k - 1 →
        0 ≤ backAux k s M r k ∧ backAux k s M r k < 257) := by
  intro s
  induction s with
  | zero =>
    intro _
    exact ⟨fun r t => rfl, hnn, hred, fun h1 => by omega⟩
  | succ s ihs =>
    intro hs1
    obtain ⟨ihc, ihn, ihr, ihz⟩ := ihs (by omega)
    have hi1 : 1 ≤ k - 1 - s := by omega
    have hik : k - 1 - s ≤ k - 1 := by omega
    have hine : k - 1 - s ≠ k := by omega
    set i := k - 1 - s with hi
    set A := backAux k s M with hA
    set AF := backAuxF k s (castM M) with hAF
    have hpiv1 : 0 ≤ A i i := ihn i i
    have hpiv2 : A i i < 257 := ihr i i hi1 hik (by omega)
    have hscale_nn : (0 : Int) ≤ A i k * nthinv (A i i) :=
      mul_nonneg (ihn i k) (nthinv_nonneg _)
    have hcast_scale : ((cmod (A i k * nthinv (A i i)) 257 : Int) : GF) =
        AF i k * (AF i i)⁻¹ := by
      rw [gf_cast_cmod _ hscale_nn, Int.cast_mul, nthinv_cast (A i i) hpiv1 hpiv2,
        ihc i k, ihc i i]
    rw [backAux_succ, backAuxF_succ, ← hA, ← hAF, ← hi]
    refine ⟨?_, ?_, ?_, ?_⟩
    · -- cast commutation, entry by entry
      intro r t
      rcases Nat.lt_trichotomy r i with hlt | heq | hgt
      · by_cases htk : t = k
        · rw [htk, bstep_below_k k A i r hlt, bstepF_below_k k AF i r hlt]
          have hinner : (0 : Int) ≤ cmod (A i k * nthinv (A i i)) 257 * A r i :=
            mul_nonneg (cmod_nonneg _ hscale_nn) (ihn r i)
          rw [gf_cast_utilmod, Int.cast_sub, gf_cast_cmod _ hinner, Int.cast_mul,
            hcast_scale, ihc r k, ihc r i]
        · by_cases hti : t = i
          · rw [hti, bstep_below_i k A i r hlt hine, bstepF_below_i k AF i r hlt hine]
            exact Int.cast_zero
          · rw [bstep_skip k A i r t htk hti, bstepF_skip k AF i r t htk hti]
            exact ihc r t
      · rw [heq]
        by_cases htk : t = k
        · rw [htk, bstep_at_ik, bstepF_at_ik]
          exact hcast_scale
        · by_cases hti : t = i
          · rw [hti, bstep_at_diag k A i hine, bstepF_at_diag k AF i hine]
            rw [gf_cast_cmod _ (mul_nonneg hpiv1 (nthinv_nonneg _)), Int.cast_mul,
              nthinv_cast (A i i) hpiv1 hpiv2, ihc i i]
          · rw [bstep_rowi_other k A i t htk hti, bstepF_rowi_other k AF i t htk hti]
            exact ihc i t
      · rw [bstep_above k A i r t hgt, bstepF_above k AF i r t hgt]
        exact ihc r t
    · -- non-negativity
      intro r t
      rcases Nat.lt_trichotomy r i with hlt | heq | hgt
      · by_cases htk : t = k
        · rw [htk, bstep_below_k k A i r hlt]
          exact utilmod_nonneg _
        · by_cases hti : t = i
          · rw [hti, bstep_below_i k A i r hlt hine]
          · rw [bstep_skip k A i r t htk hti]
            exact ihn r t
      · rw [heq]
        by_cases htk : t = k
        · rw [htk, bstep_at_ik]
          exact cmod_nonneg _ hscale_nn
        · by_cases hti : t = i
          · rw [hti, bstep_at_diag k A i hine]
            exact cmod_nonneg _ (mul_nonneg hpiv1 (nthinv_nonneg _))
          · rw [bstep_rowi_other k A i t htk hti]
            exact ihn i t
      · rw [bstep_above k A i r t hgt]
        exact ihn r t
    · -- reduced rows stay reduced
      intro r t h1r hrk htk'
      rcases Nat.lt_trichotomy r i with hlt | heq | hgt
      · by_cases htk : t = k
        · rw [htk, bstep_below_k k A i r hlt]
          exact utilmod_lt _
        · by_cases hti : t = i
          · rw [hti, bstep_below_i k A i r hlt hine]
            omega
          · rw [bstep_skip k A i r t htk hti]
            exact ihr r t h1r hrk htk'
      · rw [heq]
        by_cases htk : t = k
        · rw [htk, bstep_at_ik]
          exact cmod_lt _
        · by_cases hti : t = i
          · rw [hti, bstep_at_diag k A i hine]
            exact cmod_lt _
          · rw [bstep_rowi_other k A i t htk hti]
            exact ihr i t hi1 hik htk'
      · rw [bstep_above k A i r t hgt]
        exact ihr r t h1r hrk htk'
    · -- column k is fully reduced after at least one step
      intro _ r hrk
      rcases Nat.lt_trichotomy r i with hlt | heq | hgt
      · rw [bstep_below_k k A i r hlt]
        exact ⟨utilmod_nonneg _, utilmod_lt _⟩
      · rw [heq, bstep_at_ik]
        exact ⟨cmod_nonneg _ hscale_nn, cmod_lt _⟩
      · have hs0 : 1 ≤ s := by omega
        rw [bstep_above k A i r k hgt]
        exact ihz hs0 r hrk

theorem vandentry_nonneg (x : Int) (hx : 0 ≤ x) (t : Nat) : 0 ≤ vandentry x t := by
  rw [vandentry_eq_pow]
  exact pow_nonneg hx t

theorem buildmat_cast (k : Nat) (x pix : Nat → Int) :
    castM (buildmat k x pix) =
      matF k (fun i => ((x i : Int) : GF)) (fun i => ((pix i : Int) : GF)) := by
  funext i t
  rw [castM, buildmat, matF]
  by_cases ht : t < k
  · rw [if_pos ht, if_pos ht, vandentry_eq_pow, Int.cast_pow]
  · rw [if_neg ht, if_neg ht]

/-- Correctness of `findcoefficients` on the matrix assembled from `k`
shadows: if the shadow indices are non-negative and pairwise distinct mod
257, the pixel column is non-negative, and the pixels interpolate the
coefficient vector `a` over GF(257), then the returned column `k` holds, in
each row `r`, the unique integer in `[0, 257)` congruent to `a r`. -/
theorem findcoefficients_correct (k : Nat) (hk : 2 ≤ k) (x pix : Nat → Int)
    (a : Nat → GF) (hx0 : ∀ i, 0 ≤ x i) (hpix0 : ∀ i, 0 ≤ pix i)
    (hdist : ∀ i, i ≤ k - 1 → ∀ j, j ≤ k - 1 → i ≠ j →
      ((x i : Int) : GF) ≠ ((x j : Int) : GF))
    (hsol : ∀ i, i ≤ k - 1 →
      ((pix i : Int) : GF) =
        Finset.sum (Finset.range k) fun r => a r * ((x i : Int) : GF) ^ r) :
    ∀ r, r ≤ k - 1 →
      0 ≤ findcoefficients k (buildmat k x pix) r k ∧
      findcoefficients k (buildmat k x pix) r k < 257 ∧
      ((findcoefficients k (buildmat k x pix) r k : Int) : GF) = a r := by
  have hnn0 : ∀ i t, 0 ≤ buildmat k x pix i t := by
    intro i t
    rw [buildmat]
    by_cases ht : t < k
    · rw [if_pos ht]
      exact vandentry_nonneg (x i) (hx0 i) t
    · rw [if_neg ht]
      exact hpix0 i
  have hcol0 : ∀ i, buildmat k x pix i 0 = 1 := by
    intro i
    rw [buildmat, if_pos (by omega : 0 < k)]
    rfl
  obtain ⟨fc, fn, fr⟩ :=
    forward_commutes k (buildmat k x pix) hk hnn0 hcol0 (k - 1) (Nat.le_refl _)
  obtain ⟨bc, bn, br, bz⟩ :=
    back_commutes k (forwardAux k (k - 1) (buildmat k x pix)) hk fn
      (fun i t h1 h2 h3 => fr i t (by omega) h1 h2 h3) (k - 1) (Nat.le_refl _)
  have hcastF : castM (forwardAux k (k - 1) (buildmat k x pix)) =
      forwardF k (castM (buildmat k x pix)) := by
    funext i t
    exact fc i t
  have helim := elimF_correct k (fun i => ((x i : Int) : GF))
    (fun i => ((pix i : Int) : GF)) a hk hdist hsol
  intro r hrk
  have hfind : findcoefficients k (buildmat k x pix) r k =
      backAux k (k - 1) (forwardAux k (k - 1) (buildmat k x pix)) r k := by
    rw [findcoefficients, backphase_eq_aux, forwardphase_eq_aux]
  obtain ⟨hz1, hz2⟩ := bz (by omega) r hrk
  refine ⟨by rw [hfind]; exact hz1, by rw [hfind]; exact hz2, ?_⟩
  rw [hfind, bc r k, hcastF, ← backF_eq_backAuxF, buildmat_cast]
  exact helim r hrk

/-- Shadow image as carried between `formshadows`, `hideshadow` and
`revealsecret`: its 1-based index (`unused2`), the stored seed (`unused1`)
and its pixel buffer.  Width and height only shape the BMP container and
carry no pixel information, so they are not modelled. -/
structure Shadow where
  num : Nat
  seed : Nat
  pixels : List Nat
deriving Repr, DecidableEq, Inhabited

/-- Pixel group `j` of a pixel buffer: bytes `j*k .. j*k + k - 1`
(`&bp->imgpixels[j*k]` in `formshadows`). -/
def pixelgroup (img : List Nat) (k j : Nat) : List Nat :=
  (List.range k).map fun r => img.getD (j * k + r) 0

/-- `formshadows(bp, k, n, seed)`: shadow `i+1` holds, at position `j`, entry
`i` of the repaired evaluations of pixel group `j`. -/
def formshadows (img : List Nat) (k n seed : Nat) : List Shadow :=
  (List.range n).map fun i =>
    ⟨i + 1, seed,
      (List.range (img.length / k)).map fun j =>
        (shareGroup n (pixelgroup img k j)).getD i 0⟩

/-- Whiten-then-share pipeline of `distributeimage` (the carrier files and
the LSB embedding are handled by the stego layer, proved separately). -/
def distributeShadows (img : List Nat) (k n seed : Nat) : List Shadow :=
  formshadows (xorwithtable img seed) k n seed

/-- Augmented matrix assembled by `revealsecret` for pixel offset `p`. -/
def shadowmat (shadows : List Shadow) (k p : Nat) : Nat → Nat → Int :=
  buildmat k (fun j => ((shadows.getD j default).num : Int))
    (fun j => ((shadows.getD j default).pixels.getD p 0 : Int))

/-- Pixel buffer written by `revealsecret` before unmasking: for each pixel
offset `p` of the shadows, the `k` recovered coefficients of column `k`,
stored through `uint8_t` (mod 256). -/
def revealPixels (shadows : List Shadow) (k : Nat) : List Nat :=
  (((List.range ((shadows.headD default).pixels.length)).map fun p =>
    (List.range k).map fun r =>
      (findcoefficients k (shadowmat shadows k p) r k).toNat % 256)).flatten

/-- Full `revealsecret`: solve every pixel group, then XOR with the random
table of the first shadow's stored seed. -/
def recoverPixels (shadows : List Shadow) (k : Nat) : List Nat :=
  xorwithtable (revealPixels shadows k) ((shadows.headD default).seed)

/-- C1 counterexample: a 36-byte secret whose first masked group is
`(128, 128)` (sum 256, so evaluation at `x = 1` gives 256 and the repair
rule fires, decrementing a coefficient of the masked secret) is NOT
recovered bit-for-bit: with `k = n = 2` and seed 0 the round trip returns a
different image. -/
theorem roundtrip_fails :
    (2 : Nat) ≤ 2 ∧ 2 ≤ 2 ∧
    (∀ b ∈ xorwithtable (128 :: 128 :: List.replicate 34 0) 0, b < 256) ∧
    (2 : Nat) ∣ (xorwithtable (128 :: 128 :: List.replicate 34 0) 0).length ∧
    recoverPixels
        (distributeShadows (xorwithtable (128 :: 128 :: List.replicate 34 0) 0) 2 2 0) 2 ≠
      xorwithtable (128 :: 128 :: List.replicate 34 0) 0 := by
  refine ⟨by decide, by decide, by decide, by decide, by decide⟩

theorem polysumAux_eq_sum (x : Nat) (g : List Nat) :
    ∀ e, polysumAux x g e =
      Finset.sum (Finset.range g.length) fun q => g.getD q 0 * x ^ (e + q) := by
  induction g with
  | nil => intro e; simp [polysumAux]
  | cons c cs ih =>
    intro e
    rw [polysumAux, ih (e + 1)]
    rw [List.length_cons, Finset.sum_range_succ']
    simp only [List.getD_cons_succ, List.getD_cons_zero, Nat.add_zero]
    rw [add_comm]
    congr 1
    apply Finset.sum_congr rfl
    intro q _
    have he : e + 1 + q = e + (q + 1) := by omega
    rw [he]

theorem polysum_cast (g : List Nat) (x : Nat) :
    ((polysum g x : Nat) : GF) =
      Finset.sum (Finset.range g.length)
        fun q => ((g.getD q 0 : Nat) : GF) * ((x : Nat) : GF) ^ q := by
  rw [polysum, polysumAux_eq_sum x g 0, Nat.cast_sum]
  apply Finset.sum_congr rfl
  intro q _
  rw [Nat.cast_mul, Nat.cast_pow, Nat.zero_add]

theorem getD_map_range {α : Type} (n : Nat) (f : Nat → α) (j : Nat) (hj : j < n)
    (d : α) : ((List.range n).map f).getD j d = f j := by
  rw [List.getD_eq_getElem _ _ (by simpa using hj)]
  simp

theorem map_getD_self {α : Type} (g : List α) (d : α) :
    (List.range g.length).map (fun r => g.getD r d) = g := by
  apply List.ext_getElem
  · simp
  · intro j h1 h2
    have hj : j < g.length := h2
    rw [List.getElem_map, List.getElem_range, List.getD_eq_getElem _ _ hj]

theorem join_length_uniform {α : Type} (k : Nat) (ll : List (List α))
    (hall : ∀ l ∈ ll, l.length = k) : ll.flatten.length = ll.length * k := by
  induction ll with
  | nil => simp
  | cons l ls ih =>
    rw [List.flatten_cons, List.length_append, hall l (List.mem_cons_self l ls),
      ih fun l' hl' => hall l' (List.mem_cons_of_mem l hl'), List.length_cons]
    ring

theorem join_getD_uniform (k : Nat) (hk : 1 ≤ k) (ll : List (List Nat))
    (hall : ∀ l ∈ ll, l.length = k) :
    ∀ j, j < ll.length * k →
      ll.flatten.getD j 0 = (ll.getD (j / k) []).getD (j % k) 0 := by
  induction ll with
  | nil => intro j hj; simp at hj
  | cons l ls ih =>
    intro j hj
    have hlen : l.length = k := hall l (List.mem_cons_self l ls)
    rw [List.flatten_cons]
    rcases Nat.lt_or_ge j k with hjk | hjk
    · rw [List.getD_append _ _ _ _ (by omega)]
      rw [Nat.div_eq_of_lt hjk, Nat.mod_eq_of_lt hjk, List.getD_cons_zero]
    · rw [List.getD_append_right _ _ _ _ (by omega)]
      rw [hlen]
      have hdiv : j / k = (j - k) / k + 1 := Nat.div_eq_sub_div (by omega) hjk
      have hmod : j % k = (j - k) % k := Nat.mod_eq_sub_mod hjk
      rw [hdiv, hmod, List.getD_cons_succ]
      apply ih (fun l' hl' => hall l' (List.mem_cons_of_mem l hl'))
      rw [List.length_cons] at hj
      have : (ls.length + 1) * k = ls.length * k + k := by ring
      omega

theorem headD_eq_getD {α : Type} (l : List α) (d : α) : l.headD d = l.getD 0 d := by
  cases l <;> rfl

theorem gf_natCast_inj (a b : Nat) (ha : a < 257) (hb : b < 257)
    (h : ((a : Nat) : GF) = ((b : Nat) : GF)) : a = b := by
  have := (ZMod.natCast_eq_natCast_iff' a b 257).mp h
  rw [Nat.mod_eq_of_lt ha, Nat.mod_eq_of_lt hb] at this
  exact this

theorem getD_lt_of_forall_lt (C : List Nat) (h : ∀ b ∈ C, b < 256) (idx : Nat) :
    C.getD idx 0 < 256 := by
  rcases Nat.lt_or_ge idx C.length with hidx | hidx
  · rw [List.getD_eq_getElem _ _ hidx]
    exact h _ (List.getElem_mem _)
  · rw [List.getD_eq_default _ _ hidx]
    omega

theorem zipWith_xor_lt (p t : List Nat) (hp : ∀ b ∈ p, b < 256)
    (ht : ∀ b ∈ t, b < 256) : ∀ b ∈ List.zipWith Nat.xor p t, b < 256 := by
  induction p generalizing t with
  | nil => simp
  | cons a p ih =>
    cases t with
    | nil => simp
    | cons c t =>
      intro b hb
      rcases List.mem_cons.mp hb with rfl | hmem
      · have h1 : a < 2 ^ 8 := by
          calc a < 256 := hp a (List.mem_cons_self a p)
          _ = 2 ^ 8 := by norm_num
        have h2 : c < 2 ^ 8 := by
          calc c < 256 := ht c (List.mem_cons_self c t)
          _ = 2 ^ 8 := by norm_num
        calc Nat.xor a c = a ^^^ c := rfl
        _ < 2 ^ 8 := Nat.xor_lt_two_pow h1 h2
        _ = 256 := by norm_num
      · exact ih t (fun b hb => hp b (List.mem_cons_of_mem a hb))
          (fun b hb => ht b (List.mem_cons_of_mem c hb)) b hmem

theorem xorwithtable_bytes (pixels : List Nat) (seed : Nat)
    (h : ∀ b ∈ pixels, b < 256) : ∀ b ∈ xorwithtable pixels seed, b < 256 :=
  zipWith_xor_lt pixels (randomtable pixels.length seed) h
    (randomtableAux_lt _ _)

theorem pixelgroup_length (img : List Nat) (k j : Nat) :
    (pixelgroup img k j).length = k := by
  rw [pixelgroup, List.length_map, List.length_range]

theorem pixelgroup_getD (img : List Nat) (k j r : Nat) (hr : r < k) :
    (pixelgroup img k j).getD r 0 = img.getD (j * k + r) 0 := by
  rw [pixelgroup, getD_map_range k _ r hr]

theorem distributeShadows_getD (I : List Nat) (k n s : Nat) (j : Nat) (hj : j < n) :
    (distributeShadows I k n s).getD j default =
      ⟨j + 1, s, (List.range (I.length / k)).map fun p =>
        (shareGroup n (pixelgroup (xorwithtable I s) k p)).getD j 0⟩ := by
  rw [distributeShadows, formshadows, xorwithtable_length,
    getD_map_range n _ j hj]

/-- C1 amended: the whiten-share-hide / retrieve-solve-unwhiten round trip
is exact for every secret none of whose masked pixel groups ever evaluates
to 256 (so the lossy coefficient-repair rule never fires), for any choice of
`k` of the `n` shadows, provided the sharing evaluations stay inside the
regime where the program's double accumulation is exact: every power
`(i+1)^(k-1)` of an evaluation point and every group's full evaluation sum
lie below `2^53` (hypothesis `hsmall`; every power, product and partial sum
of `formshadows`' loop is then an integer below `2^53`, so the C computation
coincides with `polysum` — see the comment on `polysumAux` — and both
conditions hold automatically whenever `k ≤ 6`).  `n` is bounded by 255 in
accordance with the header invariant `shadowIndex ∈ [1, 255]` (indices that
collide mod 257 would make the reconstruction system singular). -/
theorem roundtrip_norepair (k n s : Nat) (I : List Nat)
    (hk : 2 ≤ k) (hkn : k ≤ n) (hn : n ≤ 255)
    (hbytes : ∀ b ∈ I, b < 256)
    (hdvd : k ∣ I.length)
    (hnorep : ∀ j, j < I.length / k →
      256 ∉ evalgroup (pixelgroup (xorwithtable I s) k j) n)
    (hsmall : ∀ i, i < n → (i + 1) ^ (k - 1) < 2 ^ 53 ∧
      ∀ j, j < I.length / k →
        polysum (pixelgroup (xorwithtable I s) k j) (i + 1) < 2 ^ 53)
    (sel : List Nat) (hnodup : sel.Nodup) (hlen : sel.length = k)
    (hmem : ∀ j ∈ sel, j < n) :
    recoverPixels (sel.map fun j => (distributeShadows I k n s).getD j default) k
      = I := by
  set C := xorwithtable I s with hC
  have hCbytes : ∀ b ∈ C, b < 256 := xorwithtable_bytes I s hbytes
  have hClen : C.length = I.length := xorwithtable_length I s
  set M := I.length / k with hM
  set T := sel.map fun j => (distributeShadows I k n s).getD j default with hT
  have hTlen : T.length = k := by rw [hT, List.length_map, hlen]
  have hselD : ∀ r, r < k → sel.getD r 0 < n := by
    intro r hr
    have hrl : r < sel.length := by omega
    rw [List.getD_eq_getElem _ _ hrl]
    exact hmem _ (List.getElem_mem _)
  have hTget : ∀ r, r < k → T.getD r default =
      ⟨sel.getD r 0 + 1, s, (List.range M).map fun p =>
        (shareGroup n (pixelgroup C k p)).getD (sel.getD r 0) 0⟩ := by
    intro r hr
    have hrl : r < sel.length := by omega
    rw [hT, List.getD_eq_getElem _ _ (by rw [List.length_map]; omega),
      List.getElem_map]
    rw [← List.getD_eq_getElem sel _ hrl]
    exact distributeShadows_getD I k n s (sel.getD r 0) (hselD r hr)
  have hhead : (T.headD default).seed = s := by
    rw [headD_eq_getD, hTget 0 (by omega)]
  have hnpix : (T.headD default).pixels.length = M := by
    rw [headD_eq_getD, hTget 0 (by omega)]
    simp
  have hpixval : ∀ r, r < k → ∀ p, p < M →
      (T.getD r default).pixels.getD p 0 =
        polysum (pixelgroup C k p) (sel.getD r 0 + 1) % 257 := by
    intro r hr p hp
    rw [hTget r hr]
    show ((List.range M).map fun p =>
      (shareGroup n (pixelgroup C k p)).getD (sel.getD r 0) 0).getD p 0 = _
    rw [getD_map_range M _ p hp]
    rw [sharegroup_done n _ (hnorep p hp)]
    rw [evalgroup, getD_map_range n _ (sel.getD r 0) (hselD r hr)]
  have hgroup : ∀ p, p < M → ∀ r, r < k →
      (findcoefficients k (shadowmat T k p) r k).toNat % 256 =
        (pixelgroup C k p).getD r 0 := by
    intro p hp r hr
    have hglen : (pixelgroup C k p).length = k := pixelgroup_length C k p
    have hgbyte : ∀ q, (pixelgroup C k p).getD q 0 < 256 := by
      intro q
      rcases Nat.lt_or_ge q (pixelgroup C k p).length with hq | hq
      · rw [pixelgroup_getD C k p q (by omega)]
        exact getD_lt_of_forall_lt C hCbytes _
      · rw [List.getD_eq_default _ _ hq]
        omega
    have hx0 : ∀ i, (0 : Int) ≤ ((T.getD i default).num : Int) := by
      intro i
      exact Int.natCast_nonneg _
    have hpix0 : ∀ i, (0 : Int) ≤ ((T.getD i default).pixels.getD p 0 : Int) := by
      intro i
      exact Int.natCast_nonneg _
    have hxval : ∀ i, i ≤ k - 1 →
        ((T.getD i default).num : Int) = ((sel.getD i 0 + 1 : Nat) : Int) := by
      intro i hi
      rw [hTget i (by omega)]
    have hdist : ∀ i, i ≤ k - 1 → ∀ j, j ≤ k - 1 → i ≠ j →
        ((((T.getD i default).num : Int) : Int) : GF) ≠
          ((((T.getD j default).num : Int) : Int) : GF) := by
      intro i hi j hj hij
      rw [hxval i hi, hxval j hj, Int.cast_natCast, Int.cast_natCast]
      intro heq
      have hne : sel.getD i 0 ≠ sel.getD j 0 := by
        have hil : i < sel.length := by omega
        have hjl : j < sel.length := by omega
        rw [List.getD_eq_getElem _ _ hil, List.getD_eq_getElem _ _ hjl]
        intro hcontra
        exact hij ((List.Nodup.getElem_inj_iff hnodup).mp hcontra)
      have h1 : sel.getD i 0 + 1 < 257 := by
        have := hselD i (by omega); omega
      have h2 : sel.getD j 0 + 1 < 257 := by
        have := hselD j (by omega); omega
      have := gf_natCast_inj _ _ h1 h2 heq
      omega
    have hsol : ∀ i, i ≤ k - 1 →
        ((((T.getD i default).pixels.getD p 0 : Int) : Int) : GF) =
          Finset.sum (Finset.range k) fun q =>
            (((pixelgroup C k p).getD q 0 : Nat) : GF) *
              ((((T.getD i default).num : Int) : Int) : GF) ^ q := by
      intro i hi
      rw [hpixval i (by omega) p hp, hxval i hi, Int.cast_natCast, Int.cast_natCast]
      rw [ZMod.natCast_mod, polysum_cast]
      rw [hglen]
    obtain ⟨h1, h2, h3⟩ := findcoefficients_correct k hk
      (fun i => ((T.getD i default).num : Int))
      (fun i => ((T.getD i default).pixels.getD p 0 : Int))
      (fun q => (((pixelgroup C k p).getD q 0 : Nat) : GF))
      hx0 hpix0 hdist hsol r (by omega)
    have hmat : shadowmat T k p = buildmat k
        (fun i => ((T.getD i default).num : Int))
        (fun i => ((T.getD i default).pixels.getD p 0 : Int)) := rfl
    rw [hmat]
    set v := findcoefficients k (buildmat k
      (fun i => ((T.getD i default).num : Int))
      (fun i => ((T.getD i default).pixels.getD p 0 : Int))) r k with hv
    have hvnat : v = ((v.toNat : Nat) : Int) := (Int.toNat_of_nonneg h1).symm
    have hvlt : v.toNat < 257 := by omega
    have hcast : ((v.toNat : Nat) : GF) = (((pixelgroup C k p).getD r 0 : Nat) : GF) := by
      rw [← Int.cast_natCast, ← hvnat]
      exact h3
    have := gf_natCast_inj v.toNat _ hvlt (by have := hgbyte r; omega) hcast
    rw [this]
    exact Nat.mod_eq_of_lt (hgbyte r)
  -- assemble the recovered buffer
  have hinner : ∀ p ∈ List.range M,
      ((List.range k).map fun r =>
        (findcoefficients k (shadowmat T k p) r k).toNat % 256) =
        pixelgroup C k p := by
    intro p hp
    have hpM : p < M := List.mem_range.mp hp
    have hglen : (pixelgroup C k p).length = k := pixelgroup_length C k p
    calc ((List.range k).map fun r =>
          (findcoefficients k (shadowmat T k p) r k).toNat % 256)
        = (List.range k).map fun r => (pixelgroup C k p).getD r 0 := by
          apply List.map_congr_left
          intro r hr
          exact hgroup p hpM r (List.mem_range.mp hr)
    _ = (List.range (pixelgroup C k p).length).map
          fun r => (pixelgroup C k p).getD r 0 := by rw [hglen]
    _ = pixelgroup C k p := map_getD_self _ 0
  have hMk : M * k = C.length := by
    rw [hClen, hM]
    exact Nat.div_mul_cancel hdvd
  have hreveal : revealPixels T k = C := by
    rw [revealPixels, hnpix]
    rw [List.map_congr_left hinner]
    have hall : ∀ l ∈ (List.range M).map fun p => pixelgroup C k p, l.length = k := by
      intro l hl
      rcases List.mem_map.mp hl with ⟨p, _, rfl⟩
      exact pixelgroup_length C k p
    apply List.ext_getElem
    · rw [join_length_uniform k _ hall, List.length_map, List.length_range]
      exact hMk
    · intro j hj1 hj2
      have hjlen : j < M * k := by
        rw [join_length_uniform k _ hall, List.length_map, List.length_range] at hj1
        exact hj1
      rw [← List.getD_eq_getElem _ 0 hj1, ← List.getD_eq_getElem _ 0 hj2]
      rw [join_getD_uniform k (by omega) _ hall j
        (by rw [List.length_map, List.length_range]; exact hjlen)]
      have hjk : j / k < M := Nat.div_lt_of_lt_mul (mul_comm M k ▸ hjlen)
      have hgetmap : (((List.range M).map fun p => pixelgroup C k p).getD (j / k) []) =
          pixelgroup C k (j / k) := getD_map_range M _ (j / k) hjk []
      rw [hgetmap, pixelgroup_getD C k (j / k) (j % k) (Nat.mod_lt j (by omega))]
      congr 1
      rw [mul_comm]
      exact Nat.div_add_mod j k
  rw [recoverPixels, hreveal, hhead, hC]
  exact mask_involution I s

/-- Witness for `roundtrip_norepair`: the 4-byte secret that whitens to
`[1, 2, 3, 4]` under seed 0 is recovered exactly with `k = n = 2` (no group
evaluates to 256, so the repair rule never fires). -/
theorem roundtrip_norepair_witness :
    (2 : Nat) ≤ 2 ∧ 2 ≤ 2 ∧ 2 ≤ 255 ∧
    (∀ b ∈ xorwithtable [1, 2, 3, 4] 0, b < 256) ∧
    (2 : Nat) ∣ (xorwithtable [1, 2, 3, 4] 0).length ∧
    (∀ j, j < (xorwithtable [1, 2, 3, 4] 0).length / 2 →
      256 ∉ evalgroup
        (pixelgroup (xorwithtable (xorwithtable [1, 2, 3, 4] 0) 0) 2 j) 2) ∧
    (∀ i, i < 2 → (i + 1) ^ (2 - 1) < 2 ^ 53 ∧
      ∀ j, j < (xorwithtable [1, 2, 3, 4] 0).length / 2 →
        polysum (pixelgroup (xorwithtable (xorwithtable [1, 2, 3, 4] 0) 0) 2 j)
          (i + 1) < 2 ^ 53) ∧
    List.Nodup [0, 1] ∧ List.length [0, 1] = 2 ∧ (∀ j ∈ [0, 1], j < 2) ∧
    recoverPixels
        ([0, 1].map fun j =>
          (distributeShadows (xorwithtable [1, 2, 3, 4] 0) 2 2 0).getD j default) 2 =
      xorwithtable [1, 2, 3, 4] 0 :=
  ⟨by decide, by decide, by decide, by decide, by decide, by decide, by decide,
    by decide, by decide, by decide,
    roundtrip_norepair 2 2 0 (xorwithtable [1, 2, 3, 4] 0) (by decide) (by decide)
      (by decide) (by decide) (by decide) (by decide) (by decide) [0, 1] (by decide)
      (by decide) (by decide)⟩

end Bmpsss
